import Mathlib

/-
Verification of the TAML parser core (tokenizer, tree builder, validator,
positioned errors) against its natural-language specification.

The source is embedded shallowly: the source string is a list of
characters, token and error classes become inductive types, throwing
functions return Except values, and the mutable scanning loops become
recursive functions over the remaining character list together with the
absolute offset in the full source.
-/

namespace Taml

/-- Position calculator: maps an offset in the source to a 1-based
line and column pair, scanning from the beginning and resetting the
column on each newline.  Mirrors calculatePosition in errors.ts. -/
def calculatePosition (source : List Char) (index : Nat) : Nat × Nat :=
  go source index 1 1
where
  go : List Char → Nat → Nat → Nat → Nat × Nat
    | _, 0, line, column => (line, column)
    | [], _, line, column => (line, column)
    | ch :: rest, n + 1, line, column =>
      if ch = '\n' then go rest n (line + 1) 1 else go rest n line (column + 1)

/-- Token union produced by the tokenizer (tokenizer.ts).  Fields follow
the TypeScript token interfaces: tagName and content are character
lists, value is the raw slice of the source, start and stop are the
offset span, and line and column are computed at the start offset. -/
inductive TamlToken where
  | openTag (tagName : List Char) (value : List Char)
      (start stop line column : Nat)
  | closeTag (tagName : List Char) (value : List Char)
      (start stop line column : Nat)
  | text (content : List Char) (value : List Char)
      (start stop line column : Nat)
  | eof (value : List Char) (start stop line column : Nat)
  deriving DecidableEq, Repr

namespace TamlToken

/-- Start offset of a token. -/
def start : TamlToken → Nat
  | .openTag _ _ s _ _ _ => s
  | .closeTag _ _ s _ _ _ => s
  | .text _ _ s _ _ _ => s
  | .eof _ s _ _ _ => s

/-- End offset of a token. -/
def stop : TamlToken → Nat
  | .openTag _ _ _ e _ _ => e
  | .closeTag _ _ _ e _ _ => e
  | .text _ _ _ e _ _ => e
  | .eof _ _ e _ _ => e

/-- Line of a token. -/
def line : TamlToken → Nat
  | .openTag _ _ _ _ l _ => l
  | .closeTag _ _ _ _ l _ => l
  | .text _ _ _ _ l _ => l
  | .eof _ _ _ l _ => l

/-- Column of a token. -/
def column : TamlToken → Nat
  | .openTag _ _ _ _ _ c => c
  | .closeTag _ _ _ _ _ c => c
  | .text _ _ _ _ _ c => c
  | .eof _ _ _ _ c => c

/-- Type guard for the eof token, mirroring isEofToken. -/
def isEof : TamlToken → Bool
  | .eof _ _ _ _ _ => true
  | _ => false


end TamlToken

/-- Error union for the error taxonomy of errors.ts.  Every positioned
variant carries the variant-specific fields followed by position, line
and column.  The source context field, used only for rendering the
detailed message, is not modelled.  The genericError variant models a
plain JavaScript Error without position data, as thrown by the depth
guard of the parser. -/
inductive TamlError where
  | invalidTag (tagName : List Char) (position line column : Nat)
  | unclosedTag (tagName : List Char) (position line column : Nat)
  | mismatchedTag (expected actual : List Char) (position line column : Nat)
  | malformedTag (content : List Char) (position line column : Nat)
  | unexpectedEndOfInput (position line column : Nat)
      (context : Option (List Char))
  | unexpectedCharacter (character : List Char) (position line column : Nat)
      (expected : Option (List Char))
  | genericError (message : List Char)
  deriving DecidableEq, Repr

deriving instance DecidableEq for Except

/-- Predicate distinguishing the positioned TamlParseError taxonomy from
a plain Error: every variant of errors.ts extends TamlParseError, while
the depth guard throws a bare Error, modelled as genericError. -/
def TamlError.isTamlParseError : TamlError → Bool
  | .genericError _ => false
  | _ => true

/-- Modelled from the spec: the closed vocabulary of 37 valid tag names
(standard colors, bright colors, background colors, text styles) and the
pure membership test isValidTag live in the external taml ast package,
which is not part of this repository; the list of names is the one the
specification and the repository test comments enumerate. -/
def validTags : List (List Char) :=
  (["black", "red", "green", "yellow", "blue", "magenta", "cyan", "white",
    "brightBlack", "brightRed", "brightGreen", "brightYellow", "brightBlue",
    "brightMagenta", "brightCyan", "brightWhite",
    "bgBlack", "bgRed", "bgGreen", "bgYellow", "bgBlue", "bgMagenta",
    "bgCyan", "bgWhite",
    "bgBrightBlack", "bgBrightRed", "bgBrightGreen", "bgBrightYellow",
    "bgBrightBlue", "bgBrightMagenta", "bgBrightCyan", "bgBrightWhite",
    "bold", "dim", "italic", "underline", "strikethrough"].map String.data)

/-- Modelled from the spec: the external membership test for the closed
tag vocabulary. -/
def isValidTag (tagName : List Char) : Bool :=
  validTags.contains tagName

/-- Text scanning loop of tokenizeText: consumes characters until the
next opening angle bracket or the end of input, decoding exactly the
two entities for the lt and amp escapes by direct prefix match and
copying any other ampersand literally.  Returns the decoded content and
the number of source characters consumed. -/
def scanText : List Char → List Char × Nat
  | [] => ([], 0)
  | '<' :: _ => ([], 0)
  | '&' :: 'l' :: 't' :: ';' :: rest =>
    let p := scanText rest
    ('<' :: p.1, p.2 + 4)
  | '&' :: 'a' :: 'm' :: 'p' :: ';' :: rest =>
    let p := scanText rest
    ('&' :: p.1, p.2 + 5)
  | c :: rest =>
    let p := scanText rest
    (c :: p.1, p.2 + 1)

/-- Character class test for tag names: the tokenizer accepts one or
more ASCII letters, mirroring the regular expression in tokenizeTag. -/
def isTagNameChar (c : Char) : Bool :=
  ('a' ≤ c ∧ c ≤ 'z') ∨ ('A' ≤ c ∧ c ≤ 'Z')

/-- Loop condition of the name scan in tokenizeTag: the scan continues
while the current character is not the closing bracket. -/
def notGt (c : Char) : Bool :=
  c ≠ '>'

/-- Body of the tag scan of tokenizeTag after the closing slash has
been recognised: isClosing records whether the tag is a closing tag,
cs2 is the remaining source after the bracket and the optional slash,
cs the remaining source after the bracket alone, pos the offset of the
bracket and src the whole source.  The candidate name is the maximal
run before the closing bracket; the error cases follow the source
order: empty name, then non-letter name, then missing closing bracket,
then unknown tag name.  On success the produced token is returned with
the number of characters consumed after the opening bracket. -/
def scanTagBody (isClosing : Bool) (cs2 cs : List Char) (pos : Nat)
    (src : List Char) : Except TamlError (TamlToken × Nat) :=
  let startPos := calculatePosition src pos
  let closingBit : Nat := if isClosing then 1 else 0
  let name := cs2.takeWhile notGt
  let rest := cs2.dropWhile notGt
  if name = [] then
    .error (.malformedTag (('<' :: cs).take (2 + closingBit + name.length))
      pos startPos.1 startPos.2)
  else if ¬ name.all isTagNameChar then
    .error (.malformedTag (('<' :: cs).take (2 + closingBit + name.length))
      pos startPos.1 startPos.2)
  else
    match rest with
    | [] =>
      .error (.unexpectedEndOfInput (pos + 1 + closingBit + name.length)
        startPos.1 startPos.2 (some "parsing tag".data))
    | r :: _ =>
      if r = '>' then
        if isValidTag name then
          .ok
            (if isClosing then
              .closeTag name (('<' :: cs).take (2 + closingBit + name.length))
                pos (pos + 2 + closingBit + name.length) startPos.1 startPos.2
            else
              .openTag name (('<' :: cs).take (2 + closingBit + name.length))
                pos (pos + 2 + closingBit + name.length) startPos.1 startPos.2,
              closingBit + name.length + 1)
        else
          .error (.invalidTag name pos startPos.1 startPos.2)
      else
        .error (.unexpectedEndOfInput (pos + 1 + closingBit + name.length)
          startPos.1 startPos.2 (some "parsing tag".data))

/-- Tag scanning of tokenizeTag, starting just after the opening angle
bracket: when the next character is a slash the tag is a closing tag
and the slash is consumed before the name is read. -/
def scanTagAfterLt (cs : List Char) (pos : Nat) (src : List Char) :
    Except TamlError (TamlToken × Nat) :=
  if cs.head? = some '/' then scanTagBody true cs.tail cs pos src
  else scanTagBody false cs cs pos src

/-- Main tokenizer loop: cs is the remaining source, pos the current
absolute offset, src the whole source.  When the remainder is empty the
single eof token is appended at the current offset; otherwise the next
token is a tag when the next character is an opening angle bracket and
a text run otherwise.  Mirrors tokenize and tokenizeNext.  The fuel
argument only makes the recursion structural; every iteration of the
scanning loop consumes at least one character, so any fuel larger than
the length of the remainder computes the loop to completion. -/
def tokenizeF : Nat → List Char → Nat → List Char → Except TamlError (List TamlToken)
  | 0, _, _, _ => .error (.genericError "tokenizer fuel exhausted".data)
  | _ + 1, [], pos, src =>
    .ok [.eof [] pos pos (calculatePosition src pos).1 (calculatePosition src pos).2]
  | fuel + 1, c :: cs, pos, src =>
    if c = '<' then
      match scanTagAfterLt cs pos src with
      | .error e => .error e
      | .ok (t, n) =>
        (tokenizeF fuel (cs.drop n) (pos + 1 + n) src).map (fun rest => t :: rest)
    else
      let p := scanText (c :: cs)
      (tokenizeF fuel (cs.drop (p.2 - 1)) (pos + p.2) src).map
        (fun rest =>
          .text p.1 ((c :: cs).take p.2) pos (pos + p.2)
            (calculatePosition src pos).1 (calculatePosition src pos).2 :: rest)

/-- Tokenizer loop at its canonical sufficient fuel. -/
def tokenizeFrom (cs : List Char) (pos : Nat) (src : List Char) :
    Except TamlError (List TamlToken) :=
  tokenizeF (cs.length + 1) cs pos src

/-- Tokenizer entry point, mirroring the tokenize convenience function. -/
def tokenizeE (source : List Char) : Except TamlError (List TamlToken) :=
  tokenizeFrom source 0 source

/-- Modelled from the spec: the tree node union of the external taml
ast package (Document, Element and Text nodes with ordered children and
an offset span), together with its construction helpers createDocument,
createElement and createText, which simply populate the fields. -/
inductive TamlNode where
  | document (children : List TamlNode) (start stop : Nat)
  | element (tagName : List Char) (children : List TamlNode) (start stop : Nat)
  | text (content : List Char) (start stop : Nat)
  deriving Repr

/-- Message of the plain Error thrown by the depth guard of
parseNodesWithDepth. -/
def depthMessage (maxDepth : Nat) : List Char :=
  ("Maximum nesting depth of " ++ toString maxDepth ++ " exceeded").data

/-- Recursive node parsing of TamlParser.parseNodesWithDepth and
parseElementWithDepth, returning the parsed sibling nodes together with
the unconsumed remainder of the token list.  On entry the depth guard
aborts when the current depth exceeds maxDepth; then the loop stops at
the end of the tokens, at an eof token or at a closing tag (left for
the caller), descends on an opening tag (requiring the matching closing
tag right after the children, else an unclosed or mismatched tag error
positioned as in the source), and emits a leaf for a text token.  The
fuel argument only makes the recursion structural: along every
recursive call the token list shrinks, so any fuel larger than the
token list length computes the recursion to completion. -/
def parseNodesF : Nat → List TamlToken → Nat → Nat →
    Except TamlError (List TamlNode × List TamlToken)
  | 0, _, _, _ => .error (.genericError "parser fuel exhausted".data)
  | fuel + 1, toks, depth, maxDepth =>
    if maxDepth < depth then .error (.genericError (depthMessage maxDepth))
    else
      match toks with
      | [] => .ok ([], [])
      | .eof v s e l c :: rest => .ok ([], .eof v s e l c :: rest)
      | .closeTag tn v s e l c :: rest => .ok ([], .closeTag tn v s e l c :: rest)
      | .text content _ s e _ _ :: rest =>
        match parseNodesF fuel rest depth maxDepth with
        | .error err => .error err
        | .ok (ns, rem) => .ok (.text content s e :: ns, rem)
      | .openTag tn _ s _ l c :: rest =>
        match parseNodesF fuel rest (depth + 1) maxDepth with
        | .error err => .error err
        | .ok (children, rem) =>
          match rem with
          | .closeTag ctn _ cs2 ce2 cl2 cc2 :: rem2 =>
            if ctn = tn then
              match parseNodesF fuel rem2 depth maxDepth with
              | .error err => .error err
              | .ok (ns, rem3) => .ok (.element tn children s ce2 :: ns, rem3)
            else .error (.mismatchedTag tn ctn cs2 cl2 cc2)
          | _ => .error (.unclosedTag tn s l c)

/-- Node parsing loop at its canonical sufficient fuel. -/
def parseNodesD (toks : List TamlToken) (depth maxDepth : Nat) :
    Except TamlError (List TamlNode × List TamlToken) :=
  parseNodesF (toks.length + 1) toks depth maxDepth

mutual
/-- Strip of position data for a single node, mirroring
stripPositionsFromNode: it zeroes the span fields and recurses into the
children.  The map over the children array is written as the mutually
recursive stripPositionsList so that the recursion over the nested
children lists is structural. -/
def stripPositionsFromNode : TamlNode → TamlNode
  | .document cs _ _ => .document (stripPositionsList cs) 0 0
  | .element tn cs _ _ => .element tn (stripPositionsList cs) 0 0
  | .text content _ _ => .text content 0 0
def stripPositionsList : List TamlNode → List TamlNode
  | [] => []
  | n :: rest => stripPositionsFromNode n :: stripPositionsList rest
end

/-- Strip of position data for the whole document, mirroring
stripPositions: the children are stripped recursively and the document
span is zeroed.  The function is only ever applied to a document node,
and any other node is returned unchanged. -/
def stripPositions : TamlNode → TamlNode
  | .document cs _ _ => .document (stripPositionsList cs) 0 0
  | n => n

/-- Wrapper mirroring TamlParser.parseWithOptions composed with the
tokenizer: tokenize the whole source up front, then parse the node
sequence from depth zero.  The unclosed tag check that follows the top
level loop in the source is unreachable there: the tag stack is pushed
and popped symmetrically inside parseElementWithDepth, every failure
inside the loop propagates as an exception, and therefore the stack is
always empty when the loop returns normally, so the check is not part
of the model.  The document node spans the whole source. -/
def parseWithOptionsE (source : List Char) (maxDepth : Nat) :
    Except TamlError TamlNode :=
  match tokenizeE source with
  | .error e => .error e
  | .ok toks =>
    match parseNodesD toks 0 maxDepth with
    | .error e => .error e
    | .ok (children, _) => .ok (.document children 0 source.length)

/-- Top level entry point, mirroring parseTaml with its two options
passed explicitly: includePositions defaults to true and maxDepth to
100 in the source, and the separate parseTamlDefault wrapper fixes
those defaults.  When includePositions is false the built tree is
post-processed by stripPositions. -/
def parseTamlE (source : List Char) (includePositions : Bool) (maxDepth : Nat) :
    Except TamlError TamlNode :=
  match parseWithOptionsE source maxDepth with
  | .error e => .error e
  | .ok ast => .ok (if includePositions then ast else stripPositions ast)

/-- Entry point with the default options of parseTaml. -/
def parseTamlDefault (source : List Char) : Except TamlError TamlNode :=
  parseTamlE source true 100

/-- Single step of the accumulating validator of validator.ts: the
linear pass of validateTokenSequence with the explicit tag stack
(innermost tag first, matching push and pop on a TypeScript array) and
the accumulated error list in encounter order.  The pass stops at the
end of the token list or at an eof token; open tags with unknown names
append an InvalidTagError and are not pushed, close tags with unknown
names append an InvalidTagError, close tags on an empty stack append a
MismatchedTagError against the pseudo tag for an absent opener, close
tags that differ from the innermost open tag append a
MismatchedTagError and pop nothing, and matching close tags pop. -/
def validateSeq : List TamlToken → List (List Char × TamlToken) → List TamlError →
    List (List Char × TamlToken) × List TamlError
  | [], st, errs => (st, errs)
  | .eof _ _ _ _ _ :: _, st, errs => (st, errs)
  | .openTag tn v s e l c :: rest, st, errs =>
    if isValidTag tn then
      validateSeq rest ((tn, .openTag tn v s e l c) :: st) errs
    else
      validateSeq rest st (errs ++ [.invalidTag tn s l c])
  | .closeTag tn _ s _ l c :: rest, st, errs =>
    if isValidTag tn then
      match st with
      | [] => validateSeq rest [] (errs ++ [.mismatchedTag "(none)".data tn s l c])
      | (otn, otok) :: st2 =>
        if otn = tn then validateSeq rest st2 errs
        else validateSeq rest ((otn, otok) :: st2) (errs ++ [.mismatchedTag otn tn s l c])
    else
      validateSeq rest st (errs ++ [.invalidTag tn s l c])
  | .text _ _ _ _ _ _ :: rest, st, errs => validateSeq rest st errs

/-- Accumulating validator entry point, mirroring
TamlValidator.validateTokens: run the linear pass from an empty stack
and no errors, then, when the stack is not empty at the end of the
stream, append one UnclosedTagError for the entry at the top of the
stack, and report validity as emptiness of the error list.  The try
catch wrapper of the source is not modelled because no step of the pass
throws. -/
def validateTokensE (toks : List TamlToken) : Bool × List TamlError :=
  let p := validateSeq toks [] []
  let errs2 :=
    match p.1 with
    | [] => p.2
    | (tn, tok) :: _ => p.2 ++ [.unclosedTag tn tok.start tok.line tok.column]
  (errs2.isEmpty, errs2)


/-- Specification side entity decoder: the text of the spec says the
content of a text token equals the raw text with the two entities for
the lt and amp escapes decoded and every other ampersand, including
incomplete entities, copied literally.  This definition follows those
words directly and is compared with the scanning loop of the source. -/
def decodeEntities : List Char → List Char
  | [] => []
  | '&' :: 'l' :: 't' :: ';' :: rest => '<' :: decodeEntities rest
  | '&' :: 'a' :: 'm' :: 'p' :: ';' :: rest => '&' :: decodeEntities rest
  | c :: rest => c :: decodeEntities rest

/-- Claim shape check for tokenization results: true exactly when the
result is a success consisting of one text token bearing the expected
content followed by one end token and nothing else. -/
def tokenizeYieldsSingleTextThenEnd (src expected : List Char) : Bool :=
  match tokenizeE src with
  | .ok [.text content _ _ _ _ _, .eof _ _ _ _ _] => content = expected
  | _ => false

/-- Test for the unclosed tag error variant. -/
def TamlError.isUnclosedTagError : TamlError → Bool
  | .unclosedTag _ _ _ _ => true
  | _ => false

/-- Count of unclosed tag errors in an error list. -/
def countUnclosed (errs : List TamlError) : Nat :=
  errs.countP (fun e => e.isUnclosedTagError)

/-- Positional consistency of an error value with respect to a source:
the line and column fields agree with the position calculator applied
to the position field.  The unexpected end of input variant is excluded
because the tokenizer positions it at the current scan offset while
computing line and column at the start of the tag, and the generic
error variant carries no position at all. -/
def errorPositionConsistent (src : List Char) : TamlError → Prop
  | .invalidTag _ p l c => (l, c) = calculatePosition src p
  | .unclosedTag _ p l c => (l, c) = calculatePosition src p
  | .mismatchedTag _ _ p l c => (l, c) = calculatePosition src p
  | .malformedTag _ p l c => (l, c) = calculatePosition src p
  | .unexpectedCharacter _ p l c _ => (l, c) = calculatePosition src p
  | .unexpectedEndOfInput _ _ _ _ => True
  | .genericError _ => True

mutual
/-- Well formed element trees over tokens: a text leaf carries one text
token, and an element carries an opening token, a forest of children
and a closing token with the same tag name.  Flattening such a forest
followed by an eof token describes exactly the token sequences of well
formed inputs. -/
inductive WfTree : Type where
  | textT (content value : List Char) (s e l c : Nat) : WfTree
  | elemT (tn vo : List Char) (so eo lo co : Nat) (children : WfForest)
      (vc : List Char) (sc ec lc cc : Nat) : WfTree
/-- Forests of well formed element trees. -/
inductive WfForest : Type where
  | nilF : WfForest
  | consF : WfTree → WfForest → WfForest
end

mutual
/-- Token sequence of a well formed tree. -/
def flattenT : WfTree → List TamlToken
  | .textT content value s e l c => [.text content value s e l c]
  | .elemT tn vo so eo lo co children vc sc ec lc cc =>
    .openTag tn vo so eo lo co ::
      (flattenF children ++ [.closeTag tn vc sc ec lc cc])
/-- Token sequence of a well formed forest. -/
def flattenF : WfForest → List TamlToken
  | .nilF => []
  | .consF t f => flattenT t ++ flattenF f
end

mutual
/-- Nesting depth of a well formed tree: text leaves have depth zero
and an element is one deeper than its children. -/
def depthT : WfTree → Nat
  | .textT _ _ _ _ _ _ => 0
  | .elemT _ _ _ _ _ _ children _ _ _ _ _ => depthF children + 1
/-- Nesting depth of a well formed forest: the maximum over its trees. -/
def depthF : WfForest → Nat
  | .nilF => 0
  | .consF t f => max (depthT t) (depthF f)
end

mutual
/-- Tree node built by the parser for a well formed tree. -/
def astT : WfTree → TamlNode
  | .textT content _ s e _ _ => .text content s e
  | .elemT tn _ so _ _ _ children _ _ ec _ _ => .element tn (astF children) so ec
/-- Tree nodes built by the parser for a well formed forest. -/
def astF : WfForest → List TamlNode
  | .nilF => []
  | .consF t f => astT t :: astF f
end

/-- Purely nested source built from n opening red tags followed by the
n matching closing tags. -/
def deepSrc : Nat → List Char
  | 0 => []
  | n + 1 => "<red>".data ++ deepSrc n ++ "</red>".data

/-- Well formed forest describing the token sequence of deepSrc n: the
argument rem counts the remaining nesting levels and the current level
is k = n - rem, whose opening tag starts at offset 5 k and whose
closing tag starts at offset 5 n + 6 (n - 1 - k). -/
def deepRedForest (n : Nat) : Nat → WfForest
  | 0 => .nilF
  | rem + 1 =>
    .consF
      (.elemT "red".data "<red>".data (5 * (n - (rem + 1)))
        (5 * (n - (rem + 1)) + 5) 1 (5 * (n - (rem + 1)) + 1)
        (deepRedForest n rem)
        "</red>".data (5 * n + 6 * (n - 1 - (n - (rem + 1))))
        (5 * n + 6 * (n - 1 - (n - (rem + 1))) + 6) 1
        (5 * n + 6 * (n - 1 - (n - (rem + 1))) + 1))
      .nilF

/-- Run of k consecutive opening red tags, the first half of the
purely nested source. -/
def openRun : Nat → List Char
  | 0 => []
  | k + 1 => "<red>".data ++ openRun k

/-- Run of k consecutive closing red tags, the second half of the
purely nested source. -/
def closeRun : Nat → List Char
  | 0 => []
  | k + 1 => "</red>".data ++ closeRun k

/-- Tokens of a run of k opening red tags starting at the given
offset, on a source without newlines. -/
def openToks : Nat → Nat → List TamlToken
  | _, 0 => []
  | base, k + 1 =>
    .openTag "red".data "<red>".data base (base + 5) 1 (base + 1) ::
      openToks (base + 5) k

/-- Tokens of a run of k closing red tags starting at the given
offset, on a source without newlines. -/
def closeToks : Nat → Nat → List TamlToken
  | _, 0 => []
  | base, k + 1 =>
    .closeTag "red".data "</red>".data base (base + 6) 1 (base + 1) ::
      closeToks (base + 6) k

/-- Specification side tag stack simulation over a token sequence: open
tags are pushed, a close tag matching the innermost open tag pops it,
text is skipped and the walk stops at the eof token or the end of the
sequence, returning the remaining stack of open tag tokens with the
innermost first.  The walk returns nothing when it meets a close tag
that does not match the innermost open tag or that has no opener, the
situations in which the parser stops with a different outcome.  The top
of the resulting stack is the innermost unclosed open tag of the
sequence. -/
def stackSim : List TamlToken → List TamlToken → Option (List TamlToken)
  | [], st => some st
  | .eof _ _ _ _ _ :: _, st => some st
  | .openTag tn v s e l c :: rest, st =>
    stackSim rest (.openTag tn v s e l c :: st)
  | .closeTag tn _ _ _ _ _ :: rest, st =>
    match st with
    | .openTag otn v2 s2 e2 l2 c2 :: st2 =>
      if otn = tn then stackSim rest st2 else none
    | _ => none
  | .text _ _ _ _ _ _ :: rest, st => stackSim rest st

/-- Shape of the remainders at which the node parsing loop can stop:
the empty list, an eof token or a closing tag at the front. -/
def isStopRemainder : List TamlToken → Bool
  | [] => true
  | .eof _ _ _ _ _ :: _ => true
  | .closeTag _ _ _ _ _ _ :: _ => true
  | _ => false

/-- Specification side description of position stripping: the second
tree has the same node kinds, tag names, text contents and child
counts and order as the first, and every position field of it is zero.
Stated as a relation between the stripped tree and the original. -/
inductive StrippedOf : TamlNode → TamlNode → Prop where
  | document (cs cs2 : List TamlNode) (s e : Nat) :
      List.Forall₂ StrippedOf cs2 cs →
      StrippedOf (.document cs2 0 0) (.document cs s e)
  | element (tn : List Char) (cs cs2 : List TamlNode) (s e : Nat) :
      List.Forall₂ StrippedOf cs2 cs →
      StrippedOf (.element tn cs2 0 0) (.element tn cs s e)
  | text (content : List Char) (s e : Nat) :
      StrippedOf (.text content 0 0) (.text content s e)

/-
Helper theorems about the embedding.
-/

/-- Fuel irrelevance for the tokenizer: any fuel strictly larger than
the remaining length yields the same result, because every iteration
consumes at least one character of the remainder. -/
theorem tokenizeF_fuel :
    ∀ (f1 f2 : Nat) (cs : List Char) (pos : Nat) (src : List Char),
      cs.length < f1 → cs.length < f2 →
      tokenizeF f1 cs pos src = tokenizeF f2 cs pos src := by
  intro f1
  induction f1 with
  | zero => intro f2 cs pos src h1 _; omega
  | succ f1 ih =>
    intro f2 cs pos src h1 h2
    match f2 with
    | 0 => omega
    | f2 + 1 =>
      cases cs with
      | nil => rfl
      | cons c cs =>
        simp only [tokenizeF]
        by_cases hc : c = '<'
        · rw [if_pos hc, if_pos hc]
          cases scanTagAfterLt cs pos src with
          | error e => rfl
          | ok tn =>
            obtain ⟨t, n⟩ := tn
            have hd : (cs.drop n).length < f1 := by
              simp only [List.length_drop]
              simp only [List.length_cons] at h1
              omega
            have hd2 : (cs.drop n).length < f2 := by
              simp only [List.length_drop]
              simp only [List.length_cons] at h2
              omega
            dsimp only
            rw [ih f2 (cs.drop n) (pos + 1 + n) src hd hd2]
        · simp only [if_neg hc]
          have hd : (cs.drop ((scanText (c :: cs)).2 - 1)).length < f1 := by
            simp only [List.length_drop]
            simp only [List.length_cons] at h1
            omega
          have hd2 : (cs.drop ((scanText (c :: cs)).2 - 1)).length < f2 := by
            simp only [List.length_drop]
            simp only [List.length_cons] at h2
            omega
          rw [ih f2 _ _ src hd hd2]

/-- Unfolding equation for the tokenizer loop on the empty remainder. -/
theorem tokenizeFrom_nil (pos : Nat) (src : List Char) :
    tokenizeFrom [] pos src =
      .ok [.eof [] pos pos (calculatePosition src pos).1 (calculatePosition src pos).2] := rfl

/-- Unfolding equation for the tokenizer loop on a nonempty remainder. -/
theorem tokenizeFrom_cons (c : Char) (cs : List Char) (pos : Nat) (src : List Char) :
    tokenizeFrom (c :: cs) pos src =
      if c = '<' then
        match scanTagAfterLt cs pos src with
        | .error e => .error e
        | .ok (t, n) =>
          (tokenizeFrom (cs.drop n) (pos + 1 + n) src).map (fun rest => t :: rest)
      else
        let p := scanText (c :: cs)
        (tokenizeFrom (cs.drop (p.2 - 1)) (pos + p.2) src).map
          (fun rest =>
            .text p.1 ((c :: cs).take p.2) pos (pos + p.2)
              (calculatePosition src pos).1 (calculatePosition src pos).2 :: rest) := by
  show tokenizeF (cs.length + 1 + 1) (c :: cs) pos src = _
  simp only [tokenizeF]
  by_cases hc : c = '<'
  · rw [if_pos hc, if_pos hc]
    cases scanTagAfterLt cs pos src with
    | error e => rfl
    | ok tn =>
      obtain ⟨t, n⟩ := tn
      dsimp only
      rw [tokenizeF_fuel (cs.length + 1) ((cs.drop n).length + 1) (cs.drop n) _ src]
      · rfl
      · simp only [List.length_drop]; omega
      · omega
  · simp only [if_neg hc]
    rw [tokenizeF_fuel (cs.length + 1) ((cs.drop ((scanText (c :: cs)).2 - 1)).length + 1)
      (cs.drop ((scanText (c :: cs)).2 - 1)) _ src]
    · rfl
    · simp only [List.length_drop]; omega
    · omega

/-- Remainder bound: the unconsumed remainder returned by the node
parsing loop is never longer than its input token list. -/
theorem parseNodesF_remainder :
    ∀ (fuel : Nat) (toks : List TamlToken) (depth maxDepth : Nat)
      (ns : List TamlNode) (rem : List TamlToken),
      parseNodesF fuel toks depth maxDepth = .ok (ns, rem) →
      rem.length ≤ toks.length := by
  intro fuel
  induction fuel with
  | zero => intro toks depth maxDepth ns rem h; exact absurd h (by simp [parseNodesF])
  | succ fuel ih =>
    intro toks depth maxDepth ns rem h
    simp only [parseNodesF] at h
    by_cases hd : maxDepth < depth
    · rw [if_pos hd] at h; exact absurd h (by simp)
    · rw [if_neg hd] at h
      match toks with
      | [] => simp_all
      | .eof v s e l c :: rest => simp_all
      | .closeTag tn v s e l c :: rest =>
        dsimp only at h
        simp only [Except.ok.injEq, Prod.mk.injEq] at h
        simp [← h.2]
      | .text content v s e l c :: rest =>
        dsimp only at h
        cases hrec : parseNodesF fuel rest depth maxDepth with
        | error err => rw [hrec] at h; exact absurd h (by simp)
        | ok p =>
          obtain ⟨ns1, rem1⟩ := p
          rw [hrec] at h
          simp only [Except.ok.injEq, Prod.mk.injEq] at h
          have := ih rest depth maxDepth ns1 rem1 hrec
          rw [← h.2]
          simp only [List.length_cons]
          omega
      | .openTag tn v s e l c :: rest =>
        dsimp only at h
        cases hrec : parseNodesF fuel rest (depth + 1) maxDepth with
        | error err => rw [hrec] at h; exact absurd h (by simp)
        | ok p =>
          obtain ⟨children, rem1⟩ := p
          rw [hrec] at h
          have hb := ih rest (depth + 1) maxDepth children rem1 hrec
          dsimp only at h
          match rem1, hb with
          | [], _ => exact absurd h (by simp)
          | .openTag tn2 v2 s2 e2 l2 c2 :: rem2, _ => exact absurd h (by simp)
          | .eof v2 s2 e2 l2 c2 :: rem2, _ => exact absurd h (by simp)
          | .text ct2 v2 s2 e2 l2 c2 :: rem2, _ => exact absurd h (by simp)
          | .closeTag ctn v2 s2 e2 l2 c2 :: rem2, hb =>
            dsimp only at h
            by_cases hctn : ctn = tn
            · rw [if_pos hctn] at h
              cases hrec2 : parseNodesF fuel rem2 depth maxDepth with
              | error err => rw [hrec2] at h; exact absurd h (by simp)
              | ok p2 =>
                obtain ⟨ns2, rem3⟩ := p2
                rw [hrec2] at h
                simp only [Except.ok.injEq, Prod.mk.injEq] at h
                have := ih rem2 depth maxDepth ns2 rem3 hrec2
                rw [← h.2]
                simp only [List.length_cons] at hb ⊢
                omega
            · rw [if_neg hctn] at h; exact absurd h (by simp)

/-- Fuel irrelevance for the node parsing loop: any fuel strictly
larger than the token list length yields the same result. -/
theorem parseNodesF_fuel :
    ∀ (f1 f2 : Nat) (toks : List TamlToken) (depth maxDepth : Nat),
      toks.length < f1 → toks.length < f2 →
      parseNodesF f1 toks depth maxDepth = parseNodesF f2 toks depth maxDepth := by
  intro f1
  induction f1 with
  | zero => intro f2 toks depth maxDepth h1 _; omega
  | succ f1 ih =>
    intro f2 toks depth maxDepth h1 h2
    match f2 with
    | 0 => omega
    | f2 + 1 =>
      simp only [parseNodesF]
      by_cases hd : maxDepth < depth
      · rw [if_pos hd, if_pos hd]
      · rw [if_neg hd, if_neg hd]
        match toks with
        | [] => rfl
        | .eof v s e l c :: rest => rfl
        | .closeTag tn v s e l c :: rest => rfl
        | .text content v s e l c :: rest =>
          simp only [List.length_cons] at h1 h2
          dsimp only
          rw [ih f2 rest depth maxDepth (by omega) (by omega)]
        | .openTag tn v s e l c :: rest =>
          simp only [List.length_cons] at h1 h2
          dsimp only
          rw [ih f2 rest (depth + 1) maxDepth (by omega) (by omega)]
          cases hrec : parseNodesF f2 rest (depth + 1) maxDepth with
          | error err => rfl
          | ok p =>
            obtain ⟨children, rem1⟩ := p
            have hb : rem1.length ≤ rest.length :=
              parseNodesF_remainder f2 rest (depth + 1) maxDepth children rem1 hrec
            dsimp only
            match rem1, hb with
            | [], _ => rfl
            | .openTag tn2 v2 s2 e2 l2 c2 :: rem2, _ => rfl
            | .eof v2 s2 e2 l2 c2 :: rem2, _ => rfl
            | .text ct2 v2 s2 e2 l2 c2 :: rem2, _ => rfl
            | .closeTag ctn v2 s2 e2 l2 c2 :: rem2, hb =>
              dsimp only
              by_cases hctn : ctn = tn
              · rw [if_pos hctn, if_pos hctn]
                simp only [List.length_cons] at hb
                rw [ih f2 rem2 depth maxDepth (by omega) (by omega)]
              · rw [if_neg hctn, if_neg hctn]

/-- Remainder bound for the canonical node parsing loop. -/
theorem parseNodesD_remainder (toks : List TamlToken) (depth maxDepth : Nat)
    (ns : List TamlNode) (rem : List TamlToken)
    (h : parseNodesD toks depth maxDepth = .ok (ns, rem)) :
    rem.length ≤ toks.length :=
  parseNodesF_remainder (toks.length + 1) toks depth maxDepth ns rem h

/-- Unfolding equation of the canonical node parsing loop, recovering
the recursion of parseNodesWithDepth and parseElementWithDepth without
the fuel argument. -/
theorem parseNodesD_eq (toks : List TamlToken) (depth maxDepth : Nat) :
    parseNodesD toks depth maxDepth =
      if maxDepth < depth then .error (.genericError (depthMessage maxDepth))
      else
        match toks with
        | [] => .ok ([], [])
        | .eof v s e l c :: rest => .ok ([], .eof v s e l c :: rest)
        | .closeTag tn v s e l c :: rest => .ok ([], .closeTag tn v s e l c :: rest)
        | .text content _ s e _ _ :: rest =>
          match parseNodesD rest depth maxDepth with
          | .error err => .error err
          | .ok (ns, rem) => .ok (.text content s e :: ns, rem)
        | .openTag tn _ s _ l c :: rest =>
          match parseNodesD rest (depth + 1) maxDepth with
          | .error err => .error err
          | .ok (children, rem) =>
            match rem with
            | .closeTag ctn _ cs2 ce2 cl2 cc2 :: rem2 =>
              if ctn = tn then
                match parseNodesD rem2 depth maxDepth with
                | .error err => .error err
                | .ok (ns, rem3) => .ok (.element tn children s ce2 :: ns, rem3)
              else .error (.mismatchedTag tn ctn cs2 cl2 cc2)
            | _ => .error (.unclosedTag tn s l c)
      := by
  match toks with
  | [] => rfl
  | .eof v s e l c :: rest => rfl
  | .closeTag tn v s e l c :: rest => rfl
  | .text content v s e l c :: rest => rfl
  | .openTag tn v s e l c :: rest =>
    show (if maxDepth < depth then
        Except.error (TamlError.genericError (depthMessage maxDepth))
      else
        match parseNodesD rest (depth + 1) maxDepth with
        | .error err => .error err
        | .ok (children, rem) =>
          match rem with
          | .closeTag ctn _ cs2 ce2 cl2 cc2 :: rem2 =>
            if ctn = tn then
              match parseNodesF (rest.length + 1) rem2 depth maxDepth with
              | .error err => .error err
              | .ok (ns, rem3) => .ok (.element tn children s ce2 :: ns, rem3)
            else .error (.mismatchedTag tn ctn cs2 cl2 cc2)
          | _ => .error (.unclosedTag tn s l c)) = _
    by_cases hd : maxDepth < depth
    · rw [if_pos hd, if_pos hd]
    · rw [if_neg hd, if_neg hd]
      dsimp only
      cases hrec : parseNodesD rest (depth + 1) maxDepth with
      | error err => rfl
      | ok p =>
        obtain ⟨children, rem1⟩ := p
        have hb : rem1.length ≤ rest.length :=
          parseNodesD_remainder rest (depth + 1) maxDepth children rem1 hrec
        dsimp only
        match rem1, hb with
        | [], _ => rfl
        | .openTag tn2 v2 s2 e2 l2 c2 :: rem2, _ => rfl
        | .eof v2 s2 e2 l2 c2 :: rem2, _ => rfl
        | .text ct2 v2 s2 e2 l2 c2 :: rem2, _ => rfl
        | .closeTag ctn v2 s2 e2 l2 c2 :: rem2, hb =>
          dsimp only
          by_cases hctn : ctn = tn
          · rw [if_pos hctn, if_pos hctn]
            simp only [List.length_cons] at hb
            rw [parseNodesF_fuel (rest.length + 1) (rem2.length + 1) rem2 depth maxDepth
              (by omega) (by omega)]
            rfl
          · rw [if_neg hctn, if_neg hctn]


/-- Position zero is line one, column one. -/
theorem calculatePosition_zero (src : List Char) : calculatePosition src 0 = (1, 1) := by
  cases src <;> rfl

/-- The text scanner never consumes more than the remainder. -/
theorem scanText_le : ∀ cs : List Char, (scanText cs).2 ≤ cs.length := by
  intro cs
  induction cs using scanText.induct with
  | case1 => simp [scanText]
  | case2 cs => simp [scanText]
  | case3 rest ih => simp only [scanText]; simp only [List.length_cons]; omega
  | case4 rest ih => simp only [scanText]; simp only [List.length_cons]; omega
  | case5 c rest h1 h2 h3 ih =>
    simp only [scanText, h1, h2, h3]
    simp only [List.length_cons]
    omega

/-- The text scanner consumes at least one character when the
remainder is nonempty and does not begin a tag. -/
theorem scanText_ge_one_aux : ∀ cs : List Char, cs ≠ [] →
    (∀ ch, cs.head? = some ch → ch ≠ '<') → 1 ≤ (scanText cs).2 := by
  intro cs
  induction cs using scanText.induct with
  | case1 => intro h _; exact absurd rfl h
  | case2 cs => intro _ h; exact absurd rfl (h '<' rfl)
  | case3 rest ih => intro _ _; simp only [scanText]; omega
  | case4 rest ih => intro _ _; simp only [scanText]; omega
  | case5 c rest h1 h2 h3 ih =>
    intro _ _
    simp only [scanText, h1, h2, h3]
    omega

/-- Cons form of the lower bound for the text scanner. -/
theorem scanText_ge_one (c : Char) (cs : List Char) (hc : c ≠ '<') :
    1 ≤ (scanText (c :: cs)).2 :=
  scanText_ge_one_aux (c :: cs) (by simp) (fun ch hch => by
    simp only [List.head?] at hch
    cases hch
    exact hc)

/-- The text scanner agrees with the specification side entity decoder
on text that contains no opening angle bracket, consuming the whole
remainder. -/
theorem scanText_no_lt : ∀ cs : List Char, (∀ ch ∈ cs, ch ≠ '<') →
    scanText cs = (decodeEntities cs, cs.length) := by
  intro cs
  induction cs using scanText.induct with
  | case1 => intro h; rfl
  | case2 cs => intro h; exact absurd rfl (h '<' (by simp))
  | case3 rest ih =>
    intro h
    simp only [scanText, decodeEntities]
    rw [ih (fun ch hm => h ch (by simp [hm]))]
    simp [List.length_cons]
  | case4 rest ih =>
    intro h
    simp only [scanText, decodeEntities]
    rw [ih (fun ch hm => h ch (by simp [hm]))]
    simp [List.length_cons]
  | case5 c rest h1 h2 h3 ih =>
    intro h
    simp only [scanText, decodeEntities, h1, h2, h3]
    rw [ih (fun ch hm => h ch (by simp [hm]))]
    simp [List.length_cons]


/-- C1 (counterexample): running the accumulating validator on the
token sequence of the mismatched input with a red opener and a blue
closer yields two errors, not one: the mismatch does not pop the
stack, so the end of stream check still reports the red tag as
unclosed, producing an additional UnclosedTagError. -/
theorem c1_counterexample :
    tokenizeE "<red>text</blue>".data =
      .ok [.openTag "red".data "<red>".data 0 5 1 1,
           .text "text".data "text".data 5 9 1 6,
           .closeTag "blue".data "</blue>".data 9 16 1 10,
           .eof [] 16 16 1 17] ∧
    (validateTokensE
      [.openTag "red".data "<red>".data 0 5 1 1,
       .text "text".data "text".data 5 9 1 6,
       .closeTag "blue".data "</blue>".data 9 16 1 10,
       .eof [] 16 16 1 17]).2.length = 2 := ⟨rfl, rfl⟩

/-- C1 (amended): the accumulating validator on the token sequence of
the mismatched input returns valid false with exactly two errors in
order: a MismatchedTagError with expected red and actual blue at the
closing tag, followed by the UnclosedTagError for red produced by the
end of stream stack check, because the validator does not pop the
stack on a mismatch. -/
theorem c1_validator_mismatch_output :
    tokenizeE "<red>text</blue>".data =
      .ok [.openTag "red".data "<red>".data 0 5 1 1,
           .text "text".data "text".data 5 9 1 6,
           .closeTag "blue".data "</blue>".data 9 16 1 10,
           .eof [] 16 16 1 17] ∧
    validateTokensE
      [.openTag "red".data "<red>".data 0 5 1 1,
       .text "text".data "text".data 5 9 1 6,
       .closeTag "blue".data "</blue>".data 9 16 1 10,
       .eof [] 16 16 1 17] =
      (false,
       [.mismatchedTag "red".data "blue".data 9 1 10,
        .unclosedTag "red".data 0 1 1]) := ⟨rfl, rfl⟩

/-- C7: text tokenization decodes exactly the two entities by direct
substring match and copies any other ampersand, including the
incomplete entity without its trailing semicolon, literally. -/
theorem c7_entity_decoding :
    tokenizeE "5 &lt; 10 &amp; R&D".data =
      .ok [.text "5 < 10 & R&D".data "5 &lt; 10 &amp; R&D".data 0 19 1 1,
           .eof [] 19 19 1 20] ∧
    tokenizeE "5 &lt 10".data =
      .ok [.text "5 &lt 10".data "5 &lt 10".data 0 8 1 1,
           .eof [] 8 8 1 9] := ⟨rfl, rfl⟩

/-- C8: parsing the simple red element yields a document spanning the
whole source with exactly one element child with tag name red and span
zero to sixteen, containing exactly one text node with content Hello
and span five to ten. -/
theorem c8_parse_hello :
    parseTamlDefault "<red>Hello</red>".data =
      .ok (.document [.element "red".data [.text "Hello".data 5 10] 0 16] 0 16) := rfl

/-- C3 (counterexample): on the empty string, which contains no
opening angle bracket, the tokenizer emits only the end token and no
text token, so the claimed shape of one text token followed by the end
token fails at the empty string. -/
theorem c3_counterexample :
    tokenizeE [] = .ok [.eof [] 0 0 1 1] ∧
      tokenizeYieldsSingleTextThenEnd [] [] = false := ⟨rfl, rfl⟩

/-- C3 (amended): for every nonempty string with no opening angle
bracket, the tokenizer returns exactly one text token, whose content
is the string with the two entities decoded and whose raw value is the
whole string, followed by exactly one end token at the end of the
source; the empty string instead yields only the end token. -/
theorem c3_text_only_tokenization (src : List Char) (hne : src ≠ [])
    (hlt : ∀ ch ∈ src, ch ≠ '<') :
    tokenizeE src = .ok
      [.text (decodeEntities src) src 0 src.length 1 1,
       .eof [] src.length src.length (calculatePosition src src.length).1
         (calculatePosition src src.length).2] := by
  match src, hne with
  | c :: cs, _ =>
    have hc : c ≠ '<' := hlt c (by simp)
    show tokenizeFrom (c :: cs) 0 (c :: cs) = _
    rw [tokenizeFrom_cons, if_neg hc]
    have hst : scanText (c :: cs) = (decodeEntities (c :: cs), (c :: cs).length) :=
      scanText_no_lt (c :: cs) hlt
    simp only [hst, List.length_cons, Nat.add_sub_cancel, List.drop_length,
      Nat.zero_add, List.take_length, tokenizeFrom_nil, Except.map,
      calculatePosition_zero]
    rw [show cs.length + 1 = (c :: cs).length from (List.length_cons c cs).symm,
      List.take_length]

/-- Witness for the amended C3 statement at a concrete two letter
input. -/
theorem c3_witness :
    "hi".data ≠ [] ∧
    tokenizeE "hi".data = .ok
      [.text (decodeEntities "hi".data) "hi".data 0 "hi".data.length 1 1,
       .eof [] "hi".data.length "hi".data.length
         (calculatePosition "hi".data "hi".data.length).1
         (calculatePosition "hi".data "hi".data.length).2] :=
  ⟨by decide, c3_text_only_tokenization "hi".data (by decide) (by decide)⟩


/-- The linear validator pass itself never produces an unclosed tag
error: it appends only invalid tag and mismatched tag errors, so any
unclosed tag error in the final result comes from the end of stream
stack check alone. -/
theorem validateSeq_countUnclosed :
    ∀ (toks : List TamlToken) (st : List (List Char × TamlToken))
      (errs : List TamlError),
      countUnclosed (validateSeq toks st errs).2 = countUnclosed errs := by
  intro toks
  induction toks with
  | nil => intro st errs; rfl
  | cons t rest ih =>
    intro st errs
    match t with
    | .eof v s e l c => rfl
    | .text content v s e l c => exact ih st errs
    | .openTag tn v s e l c =>
      simp only [validateSeq]
      by_cases hv : isValidTag tn
      · rw [if_pos hv]; exact ih _ errs
      · rw [if_neg hv]
        rw [ih st (errs ++ [TamlError.invalidTag tn s l c])]
        simp [countUnclosed, List.countP_append, TamlError.isUnclosedTagError]
    | .closeTag tn v s e l c =>
      simp only [validateSeq]
      by_cases hv : isValidTag tn
      · rw [if_pos hv]
        match st with
        | [] =>
          dsimp only
          rw [ih [] (errs ++ [TamlError.mismatchedTag "(none)".data tn s l c])]
          simp [countUnclosed, List.countP_append, TamlError.isUnclosedTagError]
        | (otn, otok) :: st2 =>
          dsimp only
          by_cases ho : otn = tn
          · rw [if_pos ho]; exact ih st2 errs
          · rw [if_neg ho]
            rw [ih ((otn, otok) :: st2) (errs ++ [TamlError.mismatchedTag otn tn s l c])]
            simp [countUnclosed, List.countP_append, TamlError.isUnclosedTagError]
      · rw [if_neg hv]
        rw [ih st (errs ++ [TamlError.invalidTag tn s l c])]
        simp [countUnclosed, List.countP_append, TamlError.isUnclosedTagError]

/-- C2 (counterexample): on the token sequence of an input with two
unclosed tags, both tags remain on the validator stack at the end of
the stream, yet only one UnclosedTagError, for the innermost remaining
tag, appears in the result: the outer red tag contributes none. -/
theorem c2_counterexample :
    tokenizeE "<red><blue>".data =
      .ok [.openTag "red".data "<red>".data 0 5 1 1,
           .openTag "blue".data "<blue>".data 5 11 1 6,
           .eof [] 11 11 1 12] ∧
    validateSeq
      [.openTag "red".data "<red>".data 0 5 1 1,
       .openTag "blue".data "<blue>".data 5 11 1 6,
       .eof [] 11 11 1 12] [] [] =
      ([("blue".data, .openTag "blue".data "<blue>".data 5 11 1 6),
        ("red".data, .openTag "red".data "<red>".data 0 5 1 1)], []) ∧
    validateTokensE
      [.openTag "red".data "<red>".data 0 5 1 1,
       .openTag "blue".data "<blue>".data 5 11 1 6,
       .eof [] 11 11 1 12] =
      (false, [.unclosedTag "blue".data 5 1 6]) := ⟨rfl, rfl, rfl⟩

/-- C2 (amended): at the end of the stream the validator appends
exactly one UnclosedTagError when any tags remain on the stack, and
none otherwise; the single error names the innermost remaining open
tag, at the position of its opening token, and the tags deeper in the
stack contribute no errors of their own. -/
theorem c2_end_of_stream_unclosed (toks : List TamlToken) :
    countUnclosed (validateTokensE toks).2 =
      (if (validateSeq toks [] []).1 = [] then 0 else 1) ∧
    (∀ (tn : List Char) (tok : TamlToken) (st2 : List (List Char × TamlToken)),
      (validateSeq toks [] []).1 = (tn, tok) :: st2 →
      (validateTokensE toks).2 =
        (validateSeq toks [] []).2 ++
          [.unclosedTag tn tok.start tok.line tok.column]) := by
  constructor
  · show countUnclosed
      (match (validateSeq toks [] []).1 with
        | [] => (validateSeq toks [] []).2
        | (tn, tok) :: _ => (validateSeq toks [] []).2 ++
            [TamlError.unclosedTag tn tok.start tok.line tok.column]) = _
    cases hst : (validateSeq toks [] []).1 with
    | nil =>
      rw [if_pos rfl]
      have hcount := validateSeq_countUnclosed toks [] []
      simpa [countUnclosed] using hcount
    | cons hd st2 =>
      obtain ⟨tn, tok⟩ := hd
      rw [if_neg (List.cons_ne_nil _ _)]
      dsimp only
      have h0 : List.countP (fun e => e.isUnclosedTagError)
          (validateSeq toks [] []).2 = 0 := by
        have hcount := validateSeq_countUnclosed toks [] []
        simpa [countUnclosed] using hcount
      simp only [countUnclosed, List.countP_append, h0]
      rfl
  · intro tn tok st2 hst
    show (match (validateSeq toks [] []).1 with
        | [] => (validateSeq toks [] []).2
        | (tn, tok) :: _ => (validateSeq toks [] []).2 ++
            [TamlError.unclosedTag tn tok.start tok.line tok.column]) = _
    rw [hst]

/-- Witness for the amended C2 statement at the token sequence of an
input with two unclosed tags. -/
theorem c2_witness :
    (validateSeq
      [.openTag "red".data "<red>".data 0 5 1 1,
       .openTag "blue".data "<blue>".data 5 11 1 6,
       .eof [] 11 11 1 12] [] []).1 =
      ("blue".data, .openTag "blue".data "<blue>".data 5 11 1 6) ::
        [("red".data, .openTag "red".data "<red>".data 0 5 1 1)] ∧
    (validateTokensE
      [.openTag "red".data "<red>".data 0 5 1 1,
       .openTag "blue".data "<blue>".data 5 11 1 6,
       .eof [] 11 11 1 12]).2 =
      (validateSeq
        [.openTag "red".data "<red>".data 0 5 1 1,
         .openTag "blue".data "<blue>".data 5 11 1 6,
         .eof [] 11 11 1 12] [] []).2 ++
        [.unclosedTag "blue".data
          (TamlToken.openTag "blue".data "<blue>".data 5 11 1 6).start
          (TamlToken.openTag "blue".data "<blue>".data 5 11 1 6).line
          (TamlToken.openTag "blue".data "<blue>".data 5 11 1 6).column] :=
  ⟨rfl,
    (c2_end_of_stream_unclosed
      [.openTag "red".data "<red>".data 0 5 1 1,
       .openTag "blue".data "<blue>".data 5 11 1 6,
       .eof [] 11 11 1 12]).2 "blue".data
      (.openTag "blue".data "<blue>".data 5 11 1 6)
      [("red".data, .openTag "red".data "<red>".data 0 5 1 1)] rfl⟩


theorem scanTagBody_ok (b : Bool) (cs2 cs : List Char) (pos : Nat) (src : List Char)
    (t : TamlToken) (n : Nat) (h : scanTagBody b cs2 cs pos src = .ok (t, n)) :
    t.start = pos ∧ t.stop = pos + 1 + n ∧ t.isEof = false ∧
    t.line = (calculatePosition src pos).1 ∧
    t.column = (calculatePosition src pos).2 ∧
    1 ≤ n ∧ n ≤ (if b then 1 else 0) + cs2.length := by
  simp only [scanTagBody] at h
  split at h
  · exact absurd h (by simp)
  · split at h
    · exact absurd h (by simp)
    · split at h
      · exact absurd h (by simp)
      · rename_i hname hletters r tail heq
        split at h
        · split at h
          · rw [Except.ok.injEq, Prod.mk.injEq] at h
            obtain ⟨ht, hn⟩ := h
            subst hn
            subst ht
            have hlen : (cs2.takeWhile notGt).length + (r :: tail).length
                = cs2.length := by
              rw [← heq, ← List.length_append, List.takeWhile_append_dropWhile]
            simp only [List.length_cons] at hlen
            cases b <;>
              refine ⟨rfl, ?_, rfl, rfl, rfl, ?_, ?_⟩ <;>
              simp only [TamlToken.stop, if_true, if_false, Bool.false_eq_true,
                reduceIte] <;>
              omega
          · exact absurd h (by simp)
        · exact absurd h (by simp)


theorem scanTagBody_error (b : Bool) (cs2 cs : List Char) (pos : Nat) (src : List Char)
    (e : TamlError) (h : scanTagBody b cs2 cs pos src = .error e) :
    errorPositionConsistent src e ∧ e.isUnclosedTagError = false ∧
      e.isTamlParseError = true := by
  simp only [scanTagBody] at h
  split at h
  · rw [Except.error.injEq] at h
    subst h
    exact ⟨rfl, rfl, rfl⟩
  · split at h
    · rw [Except.error.injEq] at h
      subst h
      exact ⟨rfl, rfl, rfl⟩
    · split at h
      · rw [Except.error.injEq] at h
        subst h
        exact ⟨trivial, rfl, rfl⟩
      · split at h
        · split at h
          · exact absurd h (by simp)
          · rw [Except.error.injEq] at h
            subst h
            exact ⟨rfl, rfl, rfl⟩
        · rw [Except.error.injEq] at h
          subst h
          exact ⟨trivial, rfl, rfl⟩

theorem scanTagAfterLt_ok (cs : List Char) (pos : Nat) (src : List Char)
    (t : TamlToken) (n : Nat) (h : scanTagAfterLt cs pos src = .ok (t, n)) :
    t.start = pos ∧ t.stop = pos + 1 + n ∧ t.isEof = false ∧
    t.line = (calculatePosition src pos).1 ∧
    t.column = (calculatePosition src pos).2 ∧
    1 ≤ n ∧ n ≤ cs.length := by
  unfold scanTagAfterLt at h
  split at h
  · rename_i hcl
    obtain ⟨h1, h2, h3, h4, h5, h6, h7⟩ := scanTagBody_ok true cs.tail cs pos src t n h
    have hlen : cs.length = cs.tail.length + 1 := by
      cases cs with
      | nil => simp at hcl
      | cons a l => simp
    refine ⟨h1, h2, h3, h4, h5, h6, ?_⟩
    simp only [if_true] at h7
    omega
  · obtain ⟨h1, h2, h3, h4, h5, h6, h7⟩ := scanTagBody_ok false cs cs pos src t n h
    refine ⟨h1, h2, h3, h4, h5, h6, ?_⟩
    simp only [Bool.false_eq_true, if_false, reduceIte] at h7
    omega

theorem scanTagAfterLt_error (cs : List Char) (pos : Nat) (src : List Char)
    (e : TamlError) (h : scanTagAfterLt cs pos src = .error e) :
    errorPositionConsistent src e ∧ e.isUnclosedTagError = false ∧
      e.isTamlParseError = true := by
  unfold scanTagAfterLt at h
  split at h
  · exact scanTagBody_error true cs.tail cs pos src e h
  · exact scanTagBody_error false cs cs pos src e h

/-- Main invariant of the tokenizer loop: a successful run from any
offset consistent with the remainder returns the scanned tokens
followed by exactly one eof token positioned at the source length,
every token before the eof token is not an eof token, spans a nonempty
range, and carries the line and column computed at its start offset,
and the eof token spans the empty range at the source length. -/
theorem tokenizeF_ok_invariant :
    ∀ (fuel : Nat) (cs : List Char) (pos : Nat) (src : List Char)
      (toks : List TamlToken),
      cs.length < fuel → pos + cs.length = src.length →
      tokenizeF fuel cs pos src = .ok toks →
      ∃ front, toks = front ++
          [.eof [] src.length src.length
            (calculatePosition src src.length).1
            (calculatePosition src src.length).2] ∧
        ∀ t ∈ front, t.isEof = false ∧ t.start < t.stop ∧
          (t.line, t.column) = calculatePosition src t.start := by
  intro fuel
  induction fuel with
  | zero => intro cs pos src toks hf; omega
  | succ fuel ih =>
    intro cs pos src toks hf hinv h
    cases cs with
    | nil =>
      have hp : pos = src.length := by simpa using hinv
      subst hp
      simp only [tokenizeF, Except.ok.injEq] at h
      subst h
      exact ⟨[], rfl, by simp⟩
    | cons c cs =>
      simp only [tokenizeF] at h
      by_cases hc : c = '<'
      · rw [if_pos hc] at h
        cases hscan : scanTagAfterLt cs pos src with
        | error e => rw [hscan] at h; exact absurd h (by simp)
        | ok p =>
          obtain ⟨t, n⟩ := p
          rw [hscan] at h
          dsimp only at h
          cases hrec : tokenizeF fuel (cs.drop n) (pos + 1 + n) src with
          | error e => rw [hrec] at h; exact absurd h (by simp [Except.map])
          | ok rest =>
            rw [hrec] at h
            simp only [Except.map, Except.ok.injEq] at h
            subst h
            obtain ⟨hs1, hs2, hs3, hs4, hs5, hs6, hs7⟩ :=
              scanTagAfterLt_ok cs pos src t n hscan
            simp only [List.length_cons] at hf hinv
            have hfin : (cs.drop n).length < fuel := by
              simp only [List.length_drop]; omega
            have hinv2 : (pos + 1 + n) + (cs.drop n).length = src.length := by
              simp only [List.length_drop]; omega
            obtain ⟨front, hfront, hall⟩ :=
              ih (cs.drop n) (pos + 1 + n) src rest hfin hinv2 hrec
            refine ⟨t :: front, by rw [hfront, List.cons_append], ?_⟩
            intro t2 ht2
            rcases List.mem_cons.1 ht2 with rfl | hmem
            · refine ⟨hs3, by omega, ?_⟩
              rw [hs1, hs4, hs5]
            · exact hall t2 hmem
      · rw [if_neg hc] at h
        cases hrec : tokenizeF fuel (cs.drop ((scanText (c :: cs)).2 - 1))
            (pos + (scanText (c :: cs)).2) src with
        | error e => rw [hrec] at h; exact absurd h (by simp [Except.map])
        | ok rest =>
          rw [hrec] at h
          simp only [Except.map, Except.ok.injEq] at h
          subst h
          have hge := scanText_ge_one c cs hc
          have hle := scanText_le (c :: cs)
          simp only [List.length_cons] at hf hinv hle
          have hfin : (cs.drop ((scanText (c :: cs)).2 - 1)).length < fuel := by
            simp only [List.length_drop]; omega
          have hinv2 : (pos + (scanText (c :: cs)).2) +
              (cs.drop ((scanText (c :: cs)).2 - 1)).length = src.length := by
            simp only [List.length_drop]; omega
          obtain ⟨front, hfront, hall⟩ :=
            ih _ _ src rest hfin hinv2 hrec
          refine ⟨_ :: front, by rw [hfront, List.cons_append], ?_⟩
          intro t2 ht2
          rcases List.mem_cons.1 ht2 with rfl | hmem
          · exact ⟨rfl, by simp [TamlToken.start, TamlToken.stop]; omega, rfl⟩
          · exact hall t2 hmem


/-- C6: for every source on which the tokenizer succeeds, the token
sequence ends with exactly one eof token, whose start and stop both
equal the source length, there is no token after it, every other token
spans a nonempty range, and the line and column of every token are the
ones computed at its start offset. -/
theorem c6_token_stream_invariants (source : List Char) (toks : List TamlToken)
    (h : tokenizeE source = .ok toks) :
    (∃ front, toks = front ++
        [.eof [] source.length source.length
          (calculatePosition source source.length).1
          (calculatePosition source source.length).2] ∧
      ∀ t ∈ front, t.isEof = false ∧ t.start < t.stop) ∧
    (∀ t ∈ toks, (t.line, t.column) = calculatePosition source t.start) := by
  obtain ⟨front, hfront, hall⟩ :=
    tokenizeF_ok_invariant (source.length + 1) source 0 source toks
      (by omega) (by omega) h
  constructor
  · exact ⟨front, hfront, fun t ht => ⟨(hall t ht).1, (hall t ht).2.1⟩⟩
  · intro t ht
    rw [hfront] at ht
    rcases List.mem_append.1 ht with hm | hm
    · exact (hall t hm).2.2
    · rcases List.mem_singleton.1 hm with rfl
      rfl

/-- Witness for C6 at a one letter source. -/
theorem c6_witness :
    (∃ front,
      ([TamlToken.text "a".data "a".data 0 1 1 1,
        TamlToken.eof [] 1 1 1 2] : List TamlToken) =
        front ++ [TamlToken.eof [] 1 1 1 2] ∧
      ∀ t ∈ front, t.isEof = false ∧ t.start < t.stop) ∧
    (∀ t ∈ ([TamlToken.text "a".data "a".data 0 1 1 1,
        TamlToken.eof [] 1 1 1 2] : List TamlToken),
      (t.line, t.column) = calculatePosition "a".data t.start) :=
  c6_token_stream_invariants "a".data
    [TamlToken.text "a".data "a".data 0 1 1 1, TamlToken.eof [] 1 1 1 2] rfl


theorem tokenizeF_error :
    ∀ (fuel : Nat) (cs : List Char) (pos : Nat) (src : List Char) (e : TamlError),
      cs.length < fuel →
      tokenizeF fuel cs pos src = .error e →
      errorPositionConsistent src e ∧ e.isUnclosedTagError = false ∧
        e.isTamlParseError = true := by
  intro fuel
  induction fuel with
  | zero => intro cs pos src e hf; omega
  | succ fuel ih =>
    intro cs pos src e hf h
    cases cs with
    | nil => exact absurd h (by simp [tokenizeF])
    | cons c cs =>
      simp only [tokenizeF] at h
      simp only [List.length_cons] at hf
      by_cases hc : c = '<'
      · rw [if_pos hc] at h
        cases hscan : scanTagAfterLt cs pos src with
        | error e2 =>
          rw [hscan] at h
          dsimp only at h
          rw [Except.error.injEq] at h
          subst h
          exact scanTagAfterLt_error cs pos src _ hscan
        | ok p =>
          obtain ⟨t, n⟩ := p
          rw [hscan] at h
          dsimp only at h
          cases hrec : tokenizeF fuel (cs.drop n) (pos + 1 + n) src with
          | error e2 =>
            rw [hrec] at h
            simp only [Except.map, Except.error.injEq] at h
            subst h
            exact ih (cs.drop n) (pos + 1 + n) src _
              (by simp only [List.length_drop]; omega) hrec
          | ok rest =>
            rw [hrec] at h
            exact absurd h (by simp [Except.map])
      · rw [if_neg hc] at h
        cases hrec : tokenizeF fuel (cs.drop ((scanText (c :: cs)).2 - 1))
            (pos + (scanText (c :: cs)).2) src with
        | error e2 =>
          rw [hrec] at h
          simp only [Except.map, Except.error.injEq] at h
          subst h
          exact ih _ _ src _ (by simp only [List.length_drop]; omega) hrec
        | ok rest =>
          rw [hrec] at h
          exact absurd h (by simp [Except.map])

theorem parseNodesF_sublist :
    ∀ (fuel : Nat) (toks : List TamlToken) (depth maxDepth : Nat)
      (ns : List TamlNode) (rem : List TamlToken),
      parseNodesF fuel toks depth maxDepth = .ok (ns, rem) →
      rem.Sublist toks := by
  intro fuel
  induction fuel with
  | zero => intro toks depth maxDepth ns rem h; exact absurd h (by simp [parseNodesF])
  | succ fuel ih =>
    intro toks depth maxDepth ns rem h
    simp only [parseNodesF] at h
    by_cases hd : maxDepth < depth
    · rw [if_pos hd] at h; exact absurd h (by simp)
    · rw [if_neg hd] at h
      match toks with
      | [] =>
        simp only [Except.ok.injEq, Prod.mk.injEq] at h
        rw [← h.2]
      | .eof v s e l c :: rest =>
        simp only [Except.ok.injEq, Prod.mk.injEq] at h
        rw [← h.2]
      | .closeTag tn v s e l c :: rest =>
        dsimp only at h
        simp only [Except.ok.injEq, Prod.mk.injEq] at h
        rw [← h.2]
      | .text content v s e l c :: rest =>
        dsimp only at h
        cases hrec : parseNodesF fuel rest depth maxDepth with
        | error err => rw [hrec] at h; exact absurd h (by simp)
        | ok p =>
          obtain ⟨ns1, rem1⟩ := p
          rw [hrec] at h
          simp only [Except.ok.injEq, Prod.mk.injEq] at h
          rw [← h.2]
          exact (ih rest depth maxDepth ns1 rem1 hrec).cons _
      | .openTag tn v s e l c :: rest =>
        dsimp only at h
        cases hrec : parseNodesF fuel rest (depth + 1) maxDepth with
        | error err => rw [hrec] at h; exact absurd h (by simp)
        | ok p =>
          obtain ⟨children, rem1⟩ := p
          rw [hrec] at h
          have hsub1 : rem1.Sublist rest := ih rest (depth + 1) maxDepth children rem1 hrec
          dsimp only at h
          match rem1, hsub1 with
          | [], _ => exact absurd h (by simp)
          | .openTag tn2 v2 s2 e2 l2 c2 :: rem2, _ => exact absurd h (by simp)
          | .eof v2 s2 e2 l2 c2 :: rem2, _ => exact absurd h (by simp)
          | .text ct2 v2 s2 e2 l2 c2 :: rem2, _ => exact absurd h (by simp)
          | .closeTag ctn v2 s2 e2 l2 c2 :: rem2, hsub1 =>
            dsimp only at h
            by_cases hctn : ctn = tn
            · rw [if_pos hctn] at h
              cases hrec2 : parseNodesF fuel rem2 depth maxDepth with
              | error err => rw [hrec2] at h; exact absurd h (by simp)
              | ok p2 =>
                obtain ⟨ns2, rem3⟩ := p2
                rw [hrec2] at h
                simp only [Except.ok.injEq, Prod.mk.injEq] at h
                rw [← h.2]
                have hsub3 : rem3.Sublist rem2 :=
                  ih rem2 depth maxDepth ns2 rem3 hrec2
                have hsub2 : rem2.Sublist rest :=
                  List.Sublist.trans (List.sublist_cons_self _ _) hsub1
                exact (List.Sublist.trans hsub3 hsub2).cons _
            · rw [if_neg hctn] at h; exact absurd h (by simp)


theorem parseNodesD_error_consistent :
    ∀ (k : Nat) (toks : List TamlToken) (depth maxDepth : Nat) (src : List Char)
      (e : TamlError),
      toks.length ≤ k →
      (∀ t ∈ toks, (t.line, t.column) = calculatePosition src t.start) →
      parseNodesD toks depth maxDepth = .error e →
      errorPositionConsistent src e := by
  intro k
  induction k with
  | zero =>
    intro toks depth maxDepth src e hk htoks h
    match toks, hk with
    | [], _ =>
      rw [parseNodesD_eq] at h
      by_cases hd : maxDepth < depth
      · rw [if_pos hd] at h
        rw [Except.error.injEq] at h
        subst h
        trivial
      · rw [if_neg hd] at h
        exact absurd h (by simp)
  | succ k ihk =>
    intro toks depth maxDepth src e hk htoks h
    rw [parseNodesD_eq] at h
    by_cases hd : maxDepth < depth
    · rw [if_pos hd] at h
      rw [Except.error.injEq] at h
      subst h
      trivial
    · rw [if_neg hd] at h
      match toks, hk, htoks with
      | [], _, _ => exact absurd h (by simp)
      | .eof v s ee l c :: rest, _, _ => exact absurd h (by simp)
      | .closeTag tn v s ee l c :: rest, _, _ => exact absurd h (by simp)
      | .text content v s ee l c :: rest, hk, htoks =>
        dsimp only at h
        cases hrec : parseNodesD rest depth maxDepth with
        | error err =>
          rw [hrec] at h
          rw [Except.error.injEq] at h
          subst h
          exact ihk rest depth maxDepth src _
            (by simp only [List.length_cons] at hk; omega)
            (fun t ht => htoks t (List.mem_cons_of_mem _ ht)) hrec
        | ok p =>
          obtain ⟨ns, rem⟩ := p
          rw [hrec] at h
          exact absurd h (by simp)
      | .openTag tn v s ee l c :: rest, hk, htoks =>
        dsimp only at h
        cases hrec : parseNodesD rest (depth + 1) maxDepth with
        | error err =>
          rw [hrec] at h
          rw [Except.error.injEq] at h
          subst h
          exact ihk rest (depth + 1) maxDepth src _
            (by simp only [List.length_cons] at hk; omega)
            (fun t ht => htoks t (List.mem_cons_of_mem _ ht)) hrec
        | ok p =>
          obtain ⟨children, rem1⟩ := p
          rw [hrec] at h
          have hsub : rem1.Sublist rest :=
            parseNodesF_sublist _ rest (depth + 1) maxDepth children rem1 hrec
          dsimp only at h
          have hopen : ((TamlToken.openTag tn v s ee l c).line,
              (TamlToken.openTag tn v s ee l c).column) =
              calculatePosition src (TamlToken.openTag tn v s ee l c).start :=
            htoks (.openTag tn v s ee l c) (by simp)
          match rem1, hsub with
          | [], _ =>
            rw [Except.error.injEq] at h
            subst h
            exact hopen
          | .openTag tn2 v2 s2 e2 l2 c2 :: rem2, _ =>
            rw [Except.error.injEq] at h
            subst h
            exact hopen
          | .eof v2 s2 e2 l2 c2 :: rem2, _ =>
            rw [Except.error.injEq] at h
            subst h
            exact hopen
          | .text ct2 v2 s2 e2 l2 c2 :: rem2, _ =>
            rw [Except.error.injEq] at h
            subst h
            exact hopen
          | .closeTag ctn v2 s2 e2 l2 c2 :: rem2, hsub =>
            dsimp only at h
            have hclosemem : TamlToken.closeTag ctn v2 s2 e2 l2 c2 ∈ rest :=
              hsub.subset (by simp)
            by_cases hctn : ctn = tn
            · rw [if_pos hctn] at h
              cases hrec2 : parseNodesD rem2 depth maxDepth with
              | error err =>
                rw [hrec2] at h
                rw [Except.error.injEq] at h
                subst h
                have hlen2 : rem2.length ≤ k := by
                  have := hsub.length_le
                  simp only [List.length_cons] at hk this
                  omega
                exact ihk rem2 depth maxDepth src _ hlen2
                  (fun t ht => htoks t (List.mem_cons_of_mem _
                    ((List.Sublist.subset hsub) (List.mem_cons_of_mem _ ht)))) hrec2
              | ok p2 =>
                obtain ⟨ns2, rem3⟩ := p2
                rw [hrec2] at h
                exact absurd h (by simp)
            · rw [if_neg hctn] at h
              rw [Except.error.injEq] at h
              subst h
              exact htoks (.closeTag ctn v2 s2 e2 l2 c2)
                (List.mem_cons_of_mem _ hclosemem)


/-- C4 (counterexample): on the input consisting of an unterminated
red tag, the tokenizer raises an UnexpectedEndOfInputError whose
position is the scan offset at the end of the input but whose line and
column are computed at the start of the tag, so they differ from the
position calculator applied to the position field. -/
theorem c4_counterexample :
    tokenizeE "<red".data =
      .error (.unexpectedEndOfInput 4 1 1 (some "parsing tag".data)) ∧
    calculatePosition "<red".data 4 = (1, 5) ∧
    ((1 : Nat), (1 : Nat)) ≠ ((1 : Nat), (5 : Nat)) := ⟨rfl, rfl, by decide⟩

/-- C4 (amended): every positioned error raised by tokenize or by
parse carries line and column equal to the position calculator applied
to its position field, with the exception of the tokenizer
UnexpectedEndOfInputError, whose position is the current scan offset
while its line and column are computed at the start of the tag being
scanned, and of the depth guard failure, which carries no position. -/
theorem c4_error_positions (source : List Char) (includePositions : Bool)
    (maxDepth : Nat) (e : TamlError)
    (h : tokenizeE source = .error e ∨
      parseTamlE source includePositions maxDepth = .error e) :
    errorPositionConsistent source e := by
  rcases h with h | h
  · exact (tokenizeF_error (source.length + 1) source 0 source e (by omega) h).1
  · unfold parseTamlE at h
    cases hp : parseWithOptionsE source maxDepth with
    | ok ast => rw [hp] at h; exact absurd h (by simp)
    | error e2 =>
      rw [hp] at h
      dsimp only at h
      rw [Except.error.injEq] at h
      subst h
      unfold parseWithOptionsE at hp
      cases htk : tokenizeE source with
      | error e3 =>
        rw [htk] at hp
        dsimp only at hp
        rw [Except.error.injEq] at hp
        subst hp
        exact (tokenizeF_error (source.length + 1) source 0 source _ (by omega) htk).1
      | ok toks =>
        rw [htk] at hp
        dsimp only at hp
        cases hpn : parseNodesD toks 0 maxDepth with
        | error e4 =>
          rw [hpn] at hp
          rw [Except.error.injEq] at hp
          subst hp
          have htoks : ∀ t ∈ toks,
              (t.line, t.column) = calculatePosition source t.start := by
            obtain ⟨front, hfront, hall⟩ :=
              tokenizeF_ok_invariant (source.length + 1) source 0 source toks
                (by omega) (by omega) htk
            intro t ht
            rw [hfront] at ht
            rcases List.mem_append.1 ht with hm | hm
            · exact (hall t hm).2.2
            · rcases List.mem_singleton.1 hm with rfl
              rfl
          exact parseNodesD_error_consistent toks.length toks 0 maxDepth source _
            le_rfl htoks hpn
        | ok p =>
          obtain ⟨children, rem⟩ := p
          rw [hpn] at hp
          exact absurd hp (by simp)

/-- Witness for the amended C4 statement: parsing an unclosed red tag
raises an UnclosedTagError positioned at the opening tag, and its line
and column agree with the position calculator there. -/
theorem c4_witness :
    errorPositionConsistent "<red>x".data
      (.unclosedTag "red".data 0 1 1) :=
  c4_error_positions "<red>x".data true 100 _ (Or.inr rfl)


mutual
/-- The strip of position data relates to the original node by the
specification side stripping relation: same kinds, tag names, text
contents, child counts and order, with every position field zero. -/
theorem strippedOf_node : ∀ n : TamlNode, StrippedOf (stripPositionsFromNode n) n
  | .document cs s e => StrippedOf.document cs (stripPositionsList cs) s e
      (strippedOf_list cs)
  | .element tn cs s e => StrippedOf.element tn cs (stripPositionsList cs) s e
      (strippedOf_list cs)
  | .text content s e => StrippedOf.text content s e
/-- List form of the stripping relation lemma. -/
theorem strippedOf_list : ∀ cs : List TamlNode,
    List.Forall₂ StrippedOf (stripPositionsList cs) cs
  | [] => List.Forall₂.nil
  | n :: rest => List.Forall₂.cons (strippedOf_node n) (strippedOf_list rest)
end

/-- C9: whenever parsing with positions succeeds, parsing the same
source with includePositions false also succeeds and returns a tree
that is structurally identical, with the same node kinds, tag names,
text contents and child counts and order, except that every position
field is zero: stripping is a pure post process over the built tree. -/
theorem c9_strip_positions (src : List Char) (t : TamlNode)
    (h : parseTamlE src true 100 = .ok t) :
    ∃ t2, parseTamlE src false 100 = .ok t2 ∧ StrippedOf t2 t := by
  unfold parseTamlE at h ⊢
  cases hp : parseWithOptionsE src 100 with
  | error e => rw [hp] at h; exact absurd h (by simp)
  | ok ast =>
    rw [hp] at h
    dsimp only at h
    rw [Except.ok.injEq] at h
    subst h
    refine ⟨stripPositions ast, by simp, ?_⟩
    unfold parseWithOptionsE at hp
    cases htk : tokenizeE src with
    | error e => rw [htk] at hp; exact absurd hp (by simp)
    | ok toks =>
      rw [htk] at hp
      dsimp only at hp
      cases hpn : parseNodesD toks 0 100 with
      | error e => rw [hpn] at hp; exact absurd hp (by simp)
      | ok p =>
        obtain ⟨children, rem⟩ := p
        rw [hpn] at hp
        rw [Except.ok.injEq] at hp
        rw [← hp]
        exact StrippedOf.document children (stripPositionsList children) 0 src.length
          (strippedOf_list children)

/-- Witness for C9 at the simple red element source. -/
theorem c9_witness :
    ∃ t2, parseTamlE "<red>Hello</red>".data false 100 = .ok t2 ∧
      StrippedOf t2
        (.document [.element "red".data [.text "Hello".data 5 10] 0 16] 0 16) :=
  c9_strip_positions "<red>Hello</red>".data
    (.document [.element "red".data [.text "Hello".data 5 10] 0 16] 0 16) rfl


theorem parseNodesD_stackSim :
    ∀ (k : Nat) (toks : List TamlToken) (depth maxDepth : Nat), toks.length ≤ k →
      (∀ (ns : List TamlNode) (rem : List TamlToken),
        parseNodesD toks depth maxDepth = .ok (ns, rem) →
        isStopRemainder rem = true ∧
        ∀ st, stackSim toks st = stackSim rem st) ∧
      (∀ (tn : List Char) (p l c : Nat),
        parseNodesD toks depth maxDepth = .error (.unclosedTag tn p l c) →
        ∀ st, ∃ v e st2, stackSim toks st = some (.openTag tn v p e l c :: st2)) := by
  intro k
  induction k with
  | zero =>
    intro toks depth maxDepth hk
    match toks, hk with
    | [], _ =>
      constructor
      · intro ns rem h
        rw [parseNodesD_eq] at h
        by_cases hd : maxDepth < depth
        · rw [if_pos hd] at h; exact absurd h (by simp)
        · rw [if_neg hd] at h
          simp only [Except.ok.injEq, Prod.mk.injEq] at h
          rw [← h.2]
          exact ⟨rfl, fun st => rfl⟩
      · intro tn p l c h
        rw [parseNodesD_eq] at h
        by_cases hd : maxDepth < depth
        · rw [if_pos hd] at h; exact absurd h (by simp)
        · rw [if_neg hd] at h; exact absurd h (by simp)
  | succ k ihk =>
    intro toks depth maxDepth hk
    match toks, hk with
    | [], _ => exact ihk [] depth maxDepth (by simp)
    | .eof v s e l c :: rest, _ =>
      constructor
      · intro ns rem h
        rw [parseNodesD_eq] at h
        by_cases hd : maxDepth < depth
        · rw [if_pos hd] at h; exact absurd h (by simp)
        · rw [if_neg hd] at h
          dsimp only at h
          simp only [Except.ok.injEq, Prod.mk.injEq] at h
          rw [← h.2]
          exact ⟨rfl, fun st => rfl⟩
      · intro tn p l2 c2 h
        rw [parseNodesD_eq] at h
        by_cases hd : maxDepth < depth
        · rw [if_pos hd] at h; exact absurd h (by simp)
        · rw [if_neg hd] at h; exact absurd h (by simp)
    | .closeTag tn v s e l c :: rest, _ =>
      constructor
      · intro ns rem h
        rw [parseNodesD_eq] at h
        by_cases hd : maxDepth < depth
        · rw [if_pos hd] at h; exact absurd h (by simp)
        · rw [if_neg hd] at h
          dsimp only at h
          simp only [Except.ok.injEq, Prod.mk.injEq] at h
          rw [← h.2]
          exact ⟨rfl, fun st => rfl⟩
      · intro tn2 p l2 c2 h
        rw [parseNodesD_eq] at h
        by_cases hd : maxDepth < depth
        · rw [if_pos hd] at h; exact absurd h (by simp)
        · rw [if_neg hd] at h; exact absurd h (by simp)
    | .text content v s e l c :: rest, hk =>
      have hrest : rest.length ≤ k := by
        simp only [List.length_cons] at hk; omega
      constructor
      · intro ns rem h
        rw [parseNodesD_eq] at h
        by_cases hd : maxDepth < depth
        · rw [if_pos hd] at h; exact absurd h (by simp)
        · rw [if_neg hd] at h
          dsimp only at h
          cases hrec : parseNodesD rest depth maxDepth with
          | error err => rw [hrec] at h; exact absurd h (by simp)
          | ok p =>
            obtain ⟨ns1, rem1⟩ := p
            rw [hrec] at h
            simp only [Except.ok.injEq, Prod.mk.injEq] at h
            obtain ⟨hstop1, hsim1⟩ := (ihk rest depth maxDepth hrest).1 ns1 rem1 hrec
            rw [← h.2]
            exact ⟨hstop1, fun st => hsim1 st⟩
      · intro tn2 p l2 c2 h
        rw [parseNodesD_eq] at h
        by_cases hd : maxDepth < depth
        · rw [if_pos hd] at h; exact absurd h (by simp)
        · rw [if_neg hd] at h
          dsimp only at h
          cases hrec : parseNodesD rest depth maxDepth with
          | error err =>
            rw [hrec] at h
            rw [Except.error.injEq] at h
            subst h
            exact (ihk rest depth maxDepth hrest).2 tn2 p l2 c2 hrec
          | ok p2 =>
            obtain ⟨ns1, rem1⟩ := p2
            rw [hrec] at h
            exact absurd h (by simp)
    | .openTag tn v s e l c :: rest, hk =>
      have hrest : rest.length ≤ k := by
        simp only [List.length_cons] at hk; omega
      constructor
      · intro ns rem h
        rw [parseNodesD_eq] at h
        by_cases hd : maxDepth < depth
        · rw [if_pos hd] at h; exact absurd h (by simp)
        · rw [if_neg hd] at h
          dsimp only at h
          cases hrec : parseNodesD rest (depth + 1) maxDepth with
          | error err => rw [hrec] at h; exact absurd h (by simp)
          | ok p =>
            obtain ⟨children, rem1⟩ := p
            rw [hrec] at h
            obtain ⟨hstop1, hsim1⟩ :=
              (ihk rest (depth + 1) maxDepth hrest).1 children rem1 hrec
            have hsub1 : rem1.Sublist rest :=
              parseNodesF_sublist _ rest (depth + 1) maxDepth children rem1 hrec
            dsimp only at h
            match rem1, hstop1, hsim1, hsub1 with
            | [], _, hsim1, _ => exact absurd h (by simp)
            | .eof v2 s2 e2 l2 c2 :: rem2, _, hsim1, _ => exact absurd h (by simp)
            | .closeTag ctn v2 s2 e2 l2 c2 :: rem2, _, hsim1, hsub1 =>
              dsimp only at h
              by_cases hctn : ctn = tn
              · rw [if_pos hctn] at h
                cases hrec2 : parseNodesD rem2 depth maxDepth with
                | error err => rw [hrec2] at h; exact absurd h (by simp)
                | ok p3 =>
                  obtain ⟨ns2, rem3⟩ := p3
                  rw [hrec2] at h
                  simp only [Except.ok.injEq, Prod.mk.injEq] at h
                  have hrem2 : rem2.length ≤ k := by
                    have := hsub1.length_le
                    simp only [List.length_cons] at hk this
                    omega
                  obtain ⟨hstop3, hsim3⟩ :=
                    (ihk rem2 depth maxDepth hrem2).1 ns2 rem3 hrec2
                  rw [← h.2]
                  refine ⟨hstop3, fun st => ?_⟩
                  show stackSim rest (.openTag tn v s e l c :: st) = _
                  rw [hsim1 (.openTag tn v s e l c :: st)]
                  show (if tn = ctn then stackSim rem2 st else none) = _
                  rw [if_pos hctn.symm]
                  exact hsim3 st
              · rw [if_neg hctn] at h; exact absurd h (by simp)
            | .openTag tn2 v2 s2 e2 l2 c2 :: rem2, hstop1, _, _ =>
              exact absurd hstop1 (by simp [isStopRemainder])
            | .text ct2 v2 s2 e2 l2 c2 :: rem2, hstop1, _, _ =>
              exact absurd hstop1 (by simp [isStopRemainder])
      · intro utn up ul uc h
        rw [parseNodesD_eq] at h
        by_cases hd : maxDepth < depth
        · rw [if_pos hd] at h; exact absurd h (by simp)
        · rw [if_neg hd] at h
          dsimp only at h
          cases hrec : parseNodesD rest (depth + 1) maxDepth with
          | error err =>
            rw [hrec] at h
            rw [Except.error.injEq] at h
            subst h
            intro st
            obtain ⟨v3, e3, st3, hsim⟩ :=
              (ihk rest (depth + 1) maxDepth hrest).2 utn up ul uc hrec
                (.openTag tn v s e l c :: st)
            exact ⟨v3, e3, st3, hsim⟩
          | ok p3 =>
            obtain ⟨children, rem1⟩ := p3
            rw [hrec] at h
            obtain ⟨hstop1, hsim1⟩ :=
              (ihk rest (depth + 1) maxDepth hrest).1 children rem1 hrec
            have hsub1 : rem1.Sublist rest :=
              parseNodesF_sublist _ rest (depth + 1) maxDepth children rem1 hrec
            dsimp only at h
            match rem1, hstop1, hsim1, hsub1 with
            | [], _, hsim1, _ =>
              rw [Except.error.injEq, TamlError.unclosedTag.injEq] at h
              obtain ⟨htn, hp, hl, hc⟩ := h
              subst htn; subst hp; subst hl; subst hc
              intro st
              refine ⟨v, e, st, ?_⟩
              show stackSim rest (.openTag tn v s e l c :: st) = _
              rw [hsim1 (.openTag tn v s e l c :: st)]
              rfl
            | .eof v2 s2 e2 l2 c2 :: rem2, _, hsim1, _ =>
              rw [Except.error.injEq, TamlError.unclosedTag.injEq] at h
              obtain ⟨htn, hp, hl, hc⟩ := h
              subst htn; subst hp; subst hl; subst hc
              intro st
              refine ⟨v, e, st, ?_⟩
              show stackSim rest (.openTag tn v s e l c :: st) = _
              rw [hsim1 (.openTag tn v s e l c :: st)]
              rfl
            | .closeTag ctn v2 s2 e2 l2 c2 :: rem2, _, hsim1, hsub1 =>
              dsimp only at h
              by_cases hctn : ctn = tn
              · rw [if_pos hctn] at h
                cases hrec2 : parseNodesD rem2 depth maxDepth with
                | error err =>
                  rw [hrec2] at h
                  rw [Except.error.injEq] at h
                  subst h
                  intro st
                  have hrem2 : rem2.length ≤ k := by
                    have := hsub1.length_le
                    simp only [List.length_cons] at hk this
                    omega
                  obtain ⟨v3, e3, st3, hsim3⟩ :=
                    (ihk rem2 depth maxDepth hrem2).2 utn up ul uc hrec2 st
                  refine ⟨v3, e3, st3, ?_⟩
                  show stackSim rest (.openTag tn v s e l c :: st) = _
                  rw [hsim1 (.openTag tn v s e l c :: st)]
                  show (if tn = ctn then stackSim rem2 st else none) = _
                  rw [if_pos hctn.symm]
                  exact hsim3
                | ok p4 =>
                  obtain ⟨ns2, rem3⟩ := p4
                  rw [hrec2] at h
                  exact absurd h (by simp)
              · rw [if_neg hctn] at h
                exact absurd h (by simp)
            | .openTag tn3 v2 s2 e2 l2 c2 :: rem2, hstop1, _, _ =>
              exact absurd hstop1 (by simp [isStopRemainder])
            | .text ct2 v2 s2 e2 l2 c2 :: rem2, hstop1, _, _ =>
              exact absurd hstop1 (by simp [isStopRemainder])


/-- C10: whenever parse fails with an UnclosedTagError, the error
names the innermost unclosed open tag and carries the offset, line and
column of that opening tag token, not of the end of input: the top of
the specification side tag stack simulation over the token sequence is
an open tag token bearing exactly the fields of the error. -/
theorem c10_unclosed_innermost (source : List Char) (includePositions : Bool)
    (maxDepth : Nat) (tn : List Char) (p l c : Nat)
    (h : parseTamlE source includePositions maxDepth =
      .error (.unclosedTag tn p l c)) :
    ∃ toks v e st2, tokenizeE source = .ok toks ∧
      stackSim toks [] = some (.openTag tn v p e l c :: st2) := by
  unfold parseTamlE at h
  cases hp : parseWithOptionsE source maxDepth with
  | ok ast => rw [hp] at h; exact absurd h (by simp)
  | error e2 =>
    rw [hp] at h
    dsimp only at h
    rw [Except.error.injEq] at h
    subst h
    unfold parseWithOptionsE at hp
    cases htk : tokenizeE source with
    | error e3 =>
      rw [htk] at hp
      dsimp only at hp
      rw [Except.error.injEq] at hp
      have hnu :=
        (tokenizeF_error (source.length + 1) source 0 source e3 (by omega) htk).2.1
      rw [hp] at hnu
      exact absurd hnu (by simp [TamlError.isUnclosedTagError])
    | ok toks =>
      rw [htk] at hp
      dsimp only at hp
      cases hpn : parseNodesD toks 0 maxDepth with
      | error e4 =>
        rw [hpn] at hp
        rw [Except.error.injEq] at hp
        subst hp
        obtain ⟨v, e, st2, hsim⟩ :=
          ((parseNodesD_stackSim toks.length toks 0 maxDepth le_rfl).2
            tn p l c hpn) []
        exact ⟨toks, v, e, st2, rfl, hsim⟩
      | ok p =>
        obtain ⟨children, rem⟩ := p
        rw [hpn] at hp
        exact absurd hp (by simp)

/-- Witness for C10: parsing an input with two nested unclosed tags
fails with an UnclosedTagError for the innermost blue tag at the
offset, line and column of its opening token. -/
theorem c10_witness :
    ∃ toks v e st2, tokenizeE "<red><blue>x".data = .ok toks ∧
      stackSim toks [] = some (.openTag "blue".data v 5 e 1 6 :: st2) :=
  c10_unclosed_innermost "<red><blue>x".data true 100 "blue".data 5 1 6 rfl


mutual
/-- Parsing the token sequence of a well formed tree within the depth
bound consumes exactly that sequence, produces the corresponding node
and continues on the rest at the same depth. -/
theorem parse_flattenT (t : WfTree) (rest : List TamlToken) (depth maxDepth : Nat)
    (hle : depth ≤ maxDepth) (hdep : depth + depthT t ≤ maxDepth) :
    parseNodesD (flattenT t ++ rest) depth maxDepth =
      (parseNodesD rest depth maxDepth).map (fun p => (astT t :: p.1, p.2)) := by
  match t with
  | .textT content value s e l c =>
    rw [show flattenT (.textT content value s e l c) ++ rest =
      .text content value s e l c :: rest from rfl]
    rw [parseNodesD_eq]
    rw [if_neg (by omega)]
    dsimp only
    cases parseNodesD rest depth maxDepth with
    | error err => rfl
    | ok p => rfl
  | .elemT tn vo so eo lo co children vc sc ec lc cc =>
    have hd1 : depth + 1 ≤ maxDepth := by
      simp only [depthT] at hdep; omega
    have hd2 : (depth + 1) + depthF children ≤ maxDepth := by
      simp only [depthT] at hdep; omega
    rw [show flattenT (.elemT tn vo so eo lo co children vc sc ec lc cc) ++ rest =
      .openTag tn vo so eo lo co ::
        (flattenF children ++ (.closeTag tn vc sc ec lc cc :: rest)) by
      simp [flattenT, List.append_assoc]]
    rw [parseNodesD_eq]
    rw [if_neg (by omega)]
    dsimp only
    rw [parse_flattenF children (.closeTag tn vc sc ec lc cc :: rest)
      (depth + 1) maxDepth hd1 hd2]
    rw [show parseNodesD (.closeTag tn vc sc ec lc cc :: rest) (depth + 1) maxDepth =
      .ok ([], .closeTag tn vc sc ec lc cc :: rest) by
      rw [parseNodesD_eq]; rw [if_neg (by omega)]]
    dsimp only [Except.map]
    rw [if_pos rfl]
    cases parseNodesD rest depth maxDepth with
    | error err => rfl
    | ok p =>
      dsimp only [Except.map, astT]
      rw [List.append_nil]
/-- Forest form of the previous statement. -/
theorem parse_flattenF (f : WfForest) (rest : List TamlToken) (depth maxDepth : Nat)
    (hle : depth ≤ maxDepth) (hdep : depth + depthF f ≤ maxDepth) :
    parseNodesD (flattenF f ++ rest) depth maxDepth =
      (parseNodesD rest depth maxDepth).map (fun p => (astF f ++ p.1, p.2)) := by
  match f with
  | .nilF =>
    rw [show flattenF .nilF ++ rest = rest from by simp [flattenF]]
    cases parseNodesD rest depth maxDepth with
    | error err => rfl
    | ok p =>
      dsimp only [Except.map, astF]
      rw [List.nil_append]
  | .consF t f2 =>
    have hdt : depth + depthT t ≤ maxDepth := by
      simp only [depthF] at hdep; omega
    have hdf : depth + depthF f2 ≤ maxDepth := by
      simp only [depthF] at hdep; omega
    rw [show flattenF (.consF t f2) ++ rest = flattenT t ++ (flattenF f2 ++ rest) by
      simp [flattenF, List.append_assoc]]
    rw [parse_flattenT t (flattenF f2 ++ rest) depth maxDepth hle hdt]
    rw [parse_flattenF f2 rest depth maxDepth hle hdf]
    cases parseNodesD rest depth maxDepth with
    | error err => rfl
    | ok p =>
      dsimp only [Except.map, astF]
      rw [List.cons_append]
end


mutual
/-- Parsing the token sequence of a well formed tree whose nesting
exceeds the depth bound aborts with the depth guard failure. -/
theorem parse_flattenT_deep (t : WfTree) (rest : List TamlToken)
    (depth maxDepth : Nat) (hle : depth ≤ maxDepth)
    (hdeep : maxDepth < depth + depthT t) :
    parseNodesD (flattenT t ++ rest) depth maxDepth =
      .error (.genericError (depthMessage maxDepth)) := by
  match t with
  | .textT content value s e l c =>
    exact absurd hdeep (by simp only [depthT]; omega)
  | .elemT tn vo so eo lo co children vc sc ec lc cc =>
    rw [show flattenT (.elemT tn vo so eo lo co children vc sc ec lc cc) ++ rest =
      .openTag tn vo so eo lo co ::
        (flattenF children ++ (.closeTag tn vc sc ec lc cc :: rest)) by
      simp [flattenT, List.append_assoc]]
    rw [parseNodesD_eq]
    rw [if_neg (by omega)]
    dsimp only
    by_cases hd1 : maxDepth < depth + 1
    · rw [show parseNodesD
          (flattenF children ++ (.closeTag tn vc sc ec lc cc :: rest))
          (depth + 1) maxDepth = .error (.genericError (depthMessage maxDepth)) by
        rw [parseNodesD_eq]; rw [if_pos hd1]]
    · rw [parse_flattenF_deep children (.closeTag tn vc sc ec lc cc :: rest)
        (depth + 1) maxDepth (by omega)
        (by simp only [depthT] at hdeep; omega)]
/-- Forest form of the previous statement. -/
theorem parse_flattenF_deep (f : WfForest) (rest : List TamlToken)
    (depth maxDepth : Nat) (hle : depth ≤ maxDepth)
    (hdeep : maxDepth < depth + depthF f) :
    parseNodesD (flattenF f ++ rest) depth maxDepth =
      .error (.genericError (depthMessage maxDepth)) := by
  match f with
  | .nilF => exact absurd hdeep (by simp only [depthF]; omega)
  | .consF t f2 =>
    rw [show flattenF (.consF t f2) ++ rest = flattenT t ++ (flattenF f2 ++ rest) by
      simp [flattenF, List.append_assoc]]
    by_cases hdt : maxDepth < depth + depthT t
    · exact parse_flattenT_deep t (flattenF f2 ++ rest) depth maxDepth hle hdt
    · rw [parse_flattenT t (flattenF f2 ++ rest) depth maxDepth hle (by omega)]
      rw [parse_flattenF_deep f2 rest depth maxDepth hle
        (by simp only [depthF] at hdeep; omega)]
      rfl
end

/-- C5: with the default options, parsing any well formed input whose
token sequence flattens a well formed forest nested at most one
hundred levels deep succeeds and builds the corresponding tree, and
parsing one nested more than one hundred levels deep aborts with the
depth guard failure, a plain error carrying only a message, which is
not part of the positioned TamlParseError taxonomy. -/
theorem c5_depth_guard (src : List Char) (f : WfForest) (v : List Char)
    (s e l c : Nat)
    (htok : tokenizeE src = .ok (flattenF f ++ [.eof v s e l c])) :
    (depthF f ≤ 100 →
      parseTamlDefault src = .ok (.document (astF f) 0 src.length)) ∧
    (100 < depthF f →
      parseTamlDefault src = .error (.genericError (depthMessage 100)) ∧
      (TamlError.genericError (depthMessage 100)).isTamlParseError = false) := by
  constructor
  · intro hdep
    show parseTamlE src true 100 = _
    unfold parseTamlE parseWithOptionsE
    rw [htok]
    dsimp only
    rw [parse_flattenF f [.eof v s e l c] 0 100 (by omega) (by omega)]
    rw [show parseNodesD [.eof v s e l c] 0 100 = .ok ([], [.eof v s e l c]) by
      rw [parseNodesD_eq]; rw [if_neg (by omega)]]
    dsimp only [Except.map]
    rw [List.append_nil]
    rfl
  · intro hdep
    refine ⟨?_, rfl⟩
    show parseTamlE src true 100 = _
    unfold parseTamlE parseWithOptionsE
    rw [htok]
    dsimp only
    rw [parse_flattenF_deep f [.eof v s e l c] 0 100 (by omega) (by omega)]

/-- Scanning at an opening red tag: after the opening bracket, an open
token over five characters is produced and four characters of the
remainder are consumed. -/
theorem scanOpen_red (rest : List Char) (pos : Nat) (src : List Char) :
    scanTagAfterLt ('r' :: 'e' :: 'd' :: '>' :: rest) pos src =
      .ok (.openTag "red".data "<red>".data pos (pos + 5)
        (calculatePosition src pos).1 (calculatePosition src pos).2, 4) := by
  show scanTagAfterLt ('r' :: 'e' :: 'd' :: '>' :: rest) pos src = _
  rw [scanTagAfterLt]
  rw [if_neg (by simp)]
  rw [scanTagBody]
  simp only [List.takeWhile, List.dropWhile, notGt]
  simp
  rw [if_neg (by decide), if_pos (by decide)]

/-- Scanning at a closing red tag: after the opening bracket, a close
token over six characters is produced and five characters of the
remainder are consumed. -/
theorem scanClose_red (rest : List Char) (pos : Nat) (src : List Char) :
    scanTagAfterLt ('/' :: 'r' :: 'e' :: 'd' :: '>' :: rest) pos src =
      .ok (.closeTag "red".data "</red>".data pos (pos + 6)
        (calculatePosition src pos).1 (calculatePosition src pos).2, 5) := by
  show scanTagAfterLt ('/' :: 'r' :: 'e' :: 'd' :: '>' :: rest) pos src = _
  rw [scanTagAfterLt]
  rw [if_pos (by simp)]
  simp only [List.tail_cons]
  rw [scanTagBody]
  simp only [List.takeWhile, List.dropWhile, notGt]
  simp
  rw [if_neg (by decide), if_pos (by decide)]

/-- On a newline free prefix the position scanner only advances the
column. -/
theorem calculatePosition_go_no_newline :
    ∀ (cs : List Char) (n line column : Nat), (∀ c ∈ cs, c ≠ '\n') →
      n ≤ cs.length →
      calculatePosition.go cs n line column = (line, column + n) := by
  intro cs
  induction cs with
  | nil =>
    intro n line column _ hn
    simp only [List.length_nil, Nat.le_zero] at hn
    subst hn
    rfl
  | cons c cs ih =>
    intro n line column h hn
    match n with
    | 0 => rfl
    | n + 1 =>
      show calculatePosition.go (c :: cs) (n + 1) line column = _
      rw [calculatePosition.go]
      rw [if_neg (h c (by simp))]
      rw [ih n line (column + 1) (fun d hd => h d (by simp [hd]))
        (by simpa using hn)]
      simp [Nat.add_comm, Nat.add_assoc, Nat.add_left_comm]

/-- On a newline free source every position lies on line one, with the
column one past the offset. -/
theorem calculatePosition_no_newline (src : List Char) (i : Nat)
    (h : ∀ c ∈ src, c ≠ '\n') (hi : i ≤ src.length) :
    calculatePosition src i = (1, i + 1) := by
  show calculatePosition.go src i 1 1 = _
  rw [calculatePosition_go_no_newline src i 1 1 h hi]
  simp [Nat.add_comm]

/-- A closing run commutes with one more closing block. -/
theorem closeRun_block (k : Nat) :
    closeRun k ++ "</red>".data = "</red>".data ++ closeRun k := by
  induction k with
  | zero => simp [closeRun]
  | succ k ih =>
    show ("</red>".data ++ closeRun k) ++ "</red>".data = _
    rw [List.append_assoc, ih]
    rfl

/-- The purely nested source splits into its opening run followed by
its closing run. -/
theorem deepSrc_runs (n : Nat) :
    deepSrc n = openRun n ++ closeRun n := by
  induction n with
  | zero => rfl
  | succ n ih =>
    show "<red>".data ++ deepSrc n ++ "</red>".data = _
    rw [ih, List.append_assoc, List.append_assoc, closeRun_block]
    rfl

/-- Length of the opening run. -/
theorem openRun_length (k : Nat) : (openRun k).length = 5 * k := by
  induction k with
  | zero => rfl
  | succ k ih =>
    show ("<red>".data ++ openRun k).length = _
    simp [ih]
    omega

/-- Length of the closing run. -/
theorem closeRun_length (k : Nat) : (closeRun k).length = 6 * k := by
  induction k with
  | zero => rfl
  | succ k ih =>
    show ("</red>".data ++ closeRun k).length = _
    simp [ih]
    omega

/-- The opening run contains no newline. -/
theorem openRun_no_newline (k : Nat) : ∀ c ∈ openRun k, c ≠ '\n' := by
  induction k with
  | zero => intro c hc; cases hc
  | succ k ih =>
    intro c hc
    rcases List.mem_append.mp hc with h | h
    · fin_cases h <;> decide
    · exact ih c h

/-- The closing run contains no newline. -/
theorem closeRun_no_newline (k : Nat) : ∀ c ∈ closeRun k, c ≠ '\n' := by
  induction k with
  | zero => intro c hc; cases hc
  | succ k ih =>
    intro c hc
    rcases List.mem_append.mp hc with h | h
    · fin_cases h <;> decide
    · exact ih c h

/-- The purely nested source contains no newline. -/
theorem deepSrc_no_newline (n : Nat) : ∀ c ∈ deepSrc n, c ≠ '\n' := by
  intro c hc
  rw [deepSrc_runs] at hc
  rcases List.mem_append.mp hc with h | h
  · exact openRun_no_newline n c h
  · exact closeRun_no_newline n c h

/-- Tokenizing a closing run that reaches the end of a newline free
source yields the corresponding close tokens followed by the eof
token. -/
theorem tokenizeFrom_closeRun :
    ∀ (k pos : Nat) (src : List Char), (∀ c ∈ src, c ≠ '\n') →
      pos + 6 * k = src.length →
      tokenizeFrom (closeRun k) pos src =
        .ok (closeToks pos k ++
          [.eof [] src.length src.length 1 (src.length + 1)]) := by
  intro k
  induction k with
  | zero =>
    intro pos src hn hl
    show tokenizeFrom [] pos src = _
    rw [tokenizeFrom_nil]
    rw [calculatePosition_no_newline src pos hn (by omega)]
    simp only [closeToks, List.nil_append]
    rw [show pos = src.length by omega]
  | succ k ih =>
    intro pos src hn hl
    show tokenizeFrom ('<' :: '/' :: 'r' :: 'e' :: 'd' :: '>' :: closeRun k)
      pos src = _
    rw [tokenizeFrom_cons, if_pos rfl, scanClose_red]
    simp only [List.drop_succ_cons, List.drop_zero]
    rw [ih (pos + 1 + 5) src hn (by omega)]
    rw [calculatePosition_no_newline src pos hn (by omega)]
    simp only [Except.map]
    show _ = Except.ok (TamlToken.closeTag "red".data "</red>".data pos
      (pos + 6) 1 (pos + 1) :: closeToks (pos + 6)
        k ++ [.eof [] src.length src.length 1 (src.length + 1)])
    rw [show pos + 1 + 5 = pos + 6 by omega]
    simp

/-- Tokenizing an opening run prepends the corresponding open tokens
to the tokens of the remainder, on a newline free source. -/
theorem tokenizeFrom_openRun :
    ∀ (k : Nat) (rest : List Char) (pos : Nat) (src : List Char),
      (∀ c ∈ src, c ≠ '\n') → pos + 5 * k + rest.length = src.length →
      tokenizeFrom (openRun k ++ rest) pos src =
        (tokenizeFrom rest (pos + 5 * k) src).map
          (fun ts => openToks pos k ++ ts) := by
  intro k
  induction k with
  | zero =>
    intro rest pos src hn hl
    simp only [openRun, List.nil_append, openToks]
    rw [show pos + 5 * 0 = pos by omega]
    cases tokenizeFrom rest pos src <;> simp [Except.map]
  | succ k ih =>
    intro rest pos src hn hl
    show tokenizeFrom ('<' :: 'r' :: 'e' :: 'd' :: '>' :: (openRun k ++ rest))
      pos src = _
    rw [tokenizeFrom_cons, if_pos rfl, scanOpen_red]
    simp only [List.drop_succ_cons, List.drop_zero]
    rw [ih rest (pos + 1 + 4) src hn (by omega)]
    rw [calculatePosition_no_newline src pos hn (by omega)]
    rw [show pos + 1 + 4 = pos + 5 by omega]
    rw [show pos + 5 + 5 * k = pos + 5 * (k + 1) by omega]
    cases tokenizeFrom rest (pos + 5 * (k + 1)) src with
    | error e => rfl
    | ok ts =>
      simp only [Except.map]
      show Except.ok (TamlToken.openTag "red".data "<red>".data pos (pos + 5)
        1 (pos + 1) :: (openToks (pos + 5) k ++ ts)) = _
      simp [openToks]

/-- Appending one more close token at the end of a block of close
tokens extends the block. -/
theorem closeToks_snoc :
    ∀ (m base : Nat),
      closeToks base m ++
        [.closeTag "red".data "</red>".data (base + 6 * m) (base + 6 * m + 6)
          1 (base + 6 * m + 1)] = closeToks base (m + 1) := by
  intro m
  induction m with
  | zero =>
    intro base
    show [TamlToken.closeTag "red".data "</red>".data (base + 6 * 0)
      (base + 6 * 0 + 6) 1 (base + 6 * 0 + 1)] = _
    rw [show base + 6 * 0 = base by omega]
    rfl
  | succ m ih =>
    intro base
    show (TamlToken.closeTag "red".data "</red>".data base (base + 6) 1
        (base + 1) :: closeToks (base + 6) m) ++ _ = _
    rw [List.cons_append]
    rw [show base + 6 * (m + 1) = (base + 6) + 6 * m by omega]
    rw [ih (base + 6)]
    rfl

/-- The token sequence of the nested red forest is the block of open
tokens followed by the block of close tokens. -/
theorem flattenF_deepRedForest :
    ∀ (rem n : Nat), rem ≤ n →
      flattenF (deepRedForest n rem) =
        openToks (5 * (n - rem)) rem ++ closeToks (5 * n) rem := by
  intro rem
  induction rem with
  | zero => intro n _; rfl
  | succ rem ih =>
    intro n h
    show flattenT (.elemT "red".data "<red>".data (5 * (n - (rem + 1)))
        (5 * (n - (rem + 1)) + 5) 1 (5 * (n - (rem + 1)) + 1)
        (deepRedForest n rem)
        "</red>".data (5 * n + 6 * (n - 1 - (n - (rem + 1))))
        (5 * n + 6 * (n - 1 - (n - (rem + 1))) + 6) 1
        (5 * n + 6 * (n - 1 - (n - (rem + 1))) + 1)) ++ flattenF .nilF = _
    simp only [flattenT, flattenF, List.append_nil]
    rw [ih n (by omega)]
    rw [show n - 1 - (n - (rem + 1)) = rem by omega]
    rw [show 5 * (n - rem) = 5 * (n - (rem + 1)) + 5 by omega]
    show TamlToken.openTag "red".data "<red>".data (5 * (n - (rem + 1)))
        (5 * (n - (rem + 1)) + 5) 1 (5 * (n - (rem + 1)) + 1) ::
      ((openToks (5 * (n - (rem + 1)) + 5) rem ++ closeToks (5 * n) rem) ++
        [TamlToken.closeTag "red".data "</red>".data (5 * n + 6 * rem)
          (5 * n + 6 * rem + 6) 1 (5 * n + 6 * rem + 1)]) = _
    rw [List.append_assoc, closeToks_snoc rem (5 * n)]
    rfl

/-- Depth of the nested red forest. -/
theorem depthF_deepRedForest :
    ∀ (rem n : Nat), depthF (deepRedForest n rem) = rem := by
  intro rem
  induction rem with
  | zero => intro n; rfl
  | succ rem ih =>
    intro n
    show max (depthT (.elemT "red".data "<red>".data (5 * (n - (rem + 1)))
      (5 * (n - (rem + 1)) + 5) 1 (5 * (n - (rem + 1)) + 1)
      (deepRedForest n rem)
      "</red>".data (5 * n + 6 * (n - 1 - (n - (rem + 1))))
      (5 * n + 6 * (n - 1 - (n - (rem + 1))) + 6) 1
      (5 * n + 6 * (n - 1 - (n - (rem + 1))) + 1))) (depthF .nilF) = _
    simp only [depthT, depthF, ih n]
    omega

/-- Tokenizing the purely nested source of depth n yields exactly the
token sequence of the nested red forest followed by the eof token. -/
theorem deepSrc_tokenize (n : Nat) :
    tokenizeE (deepSrc n) =
      .ok (flattenF (deepRedForest n n) ++
        [.eof [] (11 * n) (11 * n) 1 (11 * n + 1)]) := by
  have hn : ∀ c ∈ deepSrc n, c ≠ '\n' := deepSrc_no_newline n
  have hlen : (deepSrc n).length = 11 * n := by
    rw [deepSrc_runs]
    simp [openRun_length, closeRun_length]
    omega
  show tokenizeFrom (deepSrc n) 0 (deepSrc n) = _
  rw [deepSrc_runs n] at hn hlen ⊢
  rw [tokenizeFrom_openRun n (closeRun n) 0 (openRun n ++ closeRun n) hn
    (by rw [List.length_append, openRun_length, closeRun_length]; omega)]
  rw [tokenizeFrom_closeRun n (0 + 5 * n) (openRun n ++ closeRun n) hn
    (by rw [List.length_append, openRun_length, closeRun_length]; omega)]
  rw [flattenF_deepRedForest n n le_rfl]
  simp only [Except.map]
  rw [hlen]
  rw [show n - n = 0 by omega]
  rw [show 0 + 5 * n = 5 * n by omega]
  rw [show 5 * 0 = 0 by omega]
  rw [List.append_assoc]

/-- Witness for C5: the purely nested red sources of depth one hundred
and one hundred and one, with the token forests that tokenization
yields for them. -/
theorem c5_witness :
    (depthF (deepRedForest 100 100) ≤ 100 ∧
      parseTamlDefault (deepSrc 100) =
        .ok (.document (astF (deepRedForest 100 100)) 0 (deepSrc 100).length)) ∧
    (100 < depthF (deepRedForest 101 101) ∧
      parseTamlDefault (deepSrc 101) =
        .error (.genericError (depthMessage 100)) ∧
      (TamlError.genericError (depthMessage 100)).isTamlParseError = false) :=
  ⟨⟨by simp [depthF_deepRedForest],
    (c5_depth_guard (deepSrc 100) (deepRedForest 100 100) [] (11 * 100)
      (11 * 100) 1 (11 * 100 + 1) (deepSrc_tokenize 100)).1
      (by simp [depthF_deepRedForest])⟩,
   ⟨by simp [depthF_deepRedForest],
    (c5_depth_guard (deepSrc 101) (deepRedForest 101 101) [] (11 * 101)
      (11 * 101) 1 (11 * 101 + 1) (deepSrc_tokenize 101)).2
      (by simp [depthF_deepRedForest])⟩⟩

end Taml
